import Mathlib

/-!
Verification of the signal-forge DSP kernel against its specification.

The numeric kernel (waveform generation, fault-injection pipeline, spectral
analysis, modulation/demodulation, LTI evaluation) is embedded shallowly:
JavaScript `number` arithmetic is modelled by exact real arithmetic `ℝ`
(the engineering formulas the code implements), arrays by `List ℝ`, in-place
`Float64Array` buffers by explicit state passing over `ℕ → ℂ`, and the
implicit `Math.random()` stream by an explicit oracle `rnd : ℕ → ℝ` giving
the successive draws of one call (the spec's §9 design note prescribes
exactly this abstraction of the shared PRNG).
-/

namespace SignalForge

open Real

/-! ### Waveform generator (src/lib/signalEngine.ts) -/

/-- Parameters of `generateSignal` / `generateTimeVector` (`SignalParams`).
`harmonics` is the optional list of extra harmonic amplitudes. -/
structure SignalParams where
  amplitude : ℝ
  frequency : ℝ
  phase : ℝ
  dcOffset : ℝ
  samplingRate : ℝ
  duration : ℝ
  harmonics : Option (List ℝ) := none

/-- The eight signal bases of `SignalType`. -/
inductive SignalType
  | sine | square | triangle | sawtooth | impulse | step | noise | harmonics
  deriving DecidableEq

/-- `generateTimeVector`: `N = Math.floor(samplingRate * duration)` samples at
`i * (1 / samplingRate)`.  (JS `Array.from` with a negative length yields `[]`,
matching `Nat.floor`'s truncation of negative products to `0`.) -/
noncomputable def generateTimeVector (params : SignalParams) : List ℝ :=
  let N := ⌊params.samplingRate * params.duration⌋₊
  let dt := 1 / params.samplingRate
  (List.range N).map (fun (i : ℕ) => (i : ℝ) * dt)

/-- `HarmonicParams` of the harmonic generator. -/
structure HarmonicParams where
  fundamentalFreq : ℝ
  amplitudes : List ℝ
  phases : List ℝ

/-- `generateHarmonicSignal`: sum of `amp_i * sin(2π f (i+1) t + phase_i)` over the
amplitude list, on top of the DC offset (`phases[i] || 0` reads as `getD i 0`). -/
noncomputable def generateHarmonicSignal (params : HarmonicParams) (t : List ℝ)
    (dcOffset : ℝ) : List ℝ :=
  t.map fun ti =>
    dcOffset + ((List.range params.amplitudes.length).map (fun i =>
      params.amplitudes.getD i 0 *
        Real.sin (2 * π * (params.fundamentalFreq * (i + 1)) * ti + params.phases.getD i 0))).sum

/-- `generateSignal`.  The `noise` basis consumes two uniform draws per sample
(Box–Muller); `rnd` is the explicit random stream (draw `2*i`, `2*i+1` feed
sample `i`).  The TS `switch` has no reachable `default` for this closed union. -/
noncomputable def generateSignal (type : SignalType) (params : SignalParams)
    (t : List ℝ) (rnd : ℕ → ℝ) : List ℝ :=
  match type with
  | .sine => t.map fun ti =>
      params.amplitude * Real.sin (2 * π * params.frequency * ti + params.phase) +
        params.dcOffset
  | .square => t.map fun ti =>
      params.amplitude * Real.sign (Real.sin (2 * π * params.frequency * ti + params.phase)) +
        params.dcOffset
  | .triangle => t.map fun ti =>
      (2 * params.amplitude / π) *
        Real.arcsin (Real.sin (2 * π * params.frequency * ti + params.phase)) + params.dcOffset
  | .sawtooth => t.map fun ti =>
      let T := 1 / params.frequency
      let shifted := ti + params.phase / (2 * π * params.frequency)
      2 * params.amplitude * (shifted / T - (⌊0.5 + shifted / T⌋ : ℤ)) + params.dcOffset
  | .impulse => t.mapIdx fun i _ => (if i = 0 then params.amplitude else 0) + params.dcOffset
  | .step => t.map fun _ => params.amplitude + params.dcOffset
  | .noise => t.mapIdx fun i _ =>
      params.amplitude * Real.sqrt (-2 * Real.log (rnd (2 * i))) *
        Real.cos (2 * π * rnd (2 * i + 1)) + params.dcOffset
  | .harmonics =>
      generateHarmonicSignal
        ⟨params.frequency, params.amplitude :: params.harmonics.getD [], [params.phase]⟩
        t params.dcOffset

/-! ### Fault injection pipeline (src/lib/signalEngine.ts) -/

/-- The 21 fault kinds (`FaultTypeKey`, i.e. `FaultType` without `'none'`;
the dispatcher's `'none'` case is the `Option.none` branch of `applyFault`). -/
inductive FaultTypeKey
  | ground_fault | ground_loop | floating_ground | emi_rfi
  | open_circuit | short_circuit | cable_attenuation | impedance_mismatch
  | noise_injection | power_line | signal_clipping | signal_distortion
  | sensor_offset | sensor_drift | sensor_saturation | gain_error
  | quantization_error | aliasing | timing_jitter | sample_loss
  | power_supply_ripple
  deriving DecidableEq

/-- Per-kind multi-fault settings (`FaultConfig`). -/
structure FaultConfig where
  enabled : Bool
  severity : ℝ
  frequency : ℝ

/-- Magnitude/frequency pair handed to `applyFault` (`FaultParams`). -/
structure FaultParams where
  magnitude : ℝ
  frequency : ℝ

/-- `gaussianRandom`, Box–Muller from two uniform draws. -/
noncomputable def gaussianRandom (u1 u2 : ℝ) : ℝ :=
  Real.sqrt (-2 * Real.log u1) * Real.cos (2 * π * u2)

/-- Placeholder for the IEEE `NaN` the `sample_loss` fault writes: `ℝ` has no
NaN, so the dropped-sample marker is an arbitrary real constant here.  No claim
verified in this file depends on its value (the fault pipeline claims only
exercise configurations in which `sample_loss` is skipped). -/
def NaNReal : ℝ := 0

/-- `applyFault` for one fault kind (`none` = identity copy).  The `Math.random()`
stream of the call is the oracle `rnd`; samplewise consumers use draw `i` (or the
pair `2*i`, `2*i+1` for Gaussian faults) for sample `i`, in the call order of the
source's `map`.  The `floating_ground` running drift is written in its closed
form (prefix sum of the per-sample Gaussian increments). -/
noncomputable def applyFault (signal t : List ℝ) (faultType : Option FaultTypeKey)
    (fp : FaultParams) (rnd : ℕ → ℝ) : List ℝ :=
  let M := fp.magnitude
  let fFault := fp.frequency
  match faultType with
  | none => signal
  | some .ground_fault => signal.map fun x => x + M
  | some .ground_loop => signal.mapIdx fun i x =>
      x + M * Real.sin (2 * π * fFault * t.getD i 0)
  | some .floating_ground => signal.mapIdx fun i x =>
      x + ((List.range (i + 1)).map fun j =>
        gaussianRandom (rnd (2 * j)) (rnd (2 * j + 1)) * M * 0.01).sum
  | some .emi_rfi => signal.mapIdx fun i x =>
      x + M * Real.sin (2 * π * fFault * t.getD i 0)
  | some .open_circuit => signal.mapIdx fun i x => if rnd i < M * 0.3 then 0 else x
  | some .short_circuit => signal.map fun _ => M
  | some .cable_attenuation => signal.map fun x => (1 - M) * x
  | some .impedance_mismatch =>
      let delay := (max 1 ⌊M * 10⌋).toNat
      signal.mapIdx fun i x =>
        x + M * 0.5 * (if delay ≤ i then signal.getD (i - delay) 0 else 0)
  | some .noise_injection => signal.mapIdx fun i x =>
      x + M * gaussianRandom (rnd (2 * i)) (rnd (2 * i + 1))
  | some .power_line => signal.mapIdx fun i x =>
      x + M * Real.sin (2 * π * 50 * t.getD i 0)
  | some .signal_clipping => signal.map fun x => max (-M) (min M x)
  | some .signal_distortion => signal.map fun x => x + M * x * x
  | some .sensor_offset => signal.map fun x => x + M
  | some .sensor_drift => signal.mapIdx fun i x => x + M * t.getD i 0
  | some .sensor_saturation =>
      let limit := if |M| = 0 then 1 else |M|
      signal.map fun x => max (-limit) (min limit x)
  | some .gain_error => signal.map fun x => (1 + M) * x
  | some .quantization_error =>
      let q := if |M| = 0 then 0.1 else |M|
      signal.map fun x => (⌊x / q + 0.5⌋ : ℤ) * q
  | some .aliasing =>
      let skip := (max 2 ⌊1 / (1 - M * 0.8)⌋).toNat
      signal.mapIdx fun i _ => signal.getD (i / skip * skip) 0
  | some .timing_jitter => signal.mapIdx fun i _ =>
      let jitter : ℤ := ⌊gaussianRandom (rnd (2 * i)) (rnd (2 * i + 1)) * M * 5⌋
      signal.getD (max 0 (min ((signal.length : ℤ) - 1) (i + jitter))).toNat 0
  | some .sample_loss => signal.mapIdx fun i x => if rnd i < M * 0.2 then NaNReal else x
  | some .power_supply_ripple => signal.mapIdx fun i x =>
      x + M * Real.sin (2 * π * fFault * t.getD i 0)

/-- `FAULT_TYPE_KEYS`, the fixed enumeration order of the pipeline. -/
def FAULT_TYPE_KEYS : List FaultTypeKey :=
  [.ground_fault, .ground_loop, .floating_ground, .emi_rfi,
   .open_circuit, .short_circuit, .cable_attenuation, .impedance_mismatch,
   .noise_injection, .power_line, .signal_clipping, .signal_distortion,
   .sensor_offset, .sensor_drift, .sensor_saturation, .gain_error,
   .quantization_error, .aliasing, .timing_jitter, .sample_loss,
   .power_supply_ripple]

/-- A multi-fault configuration maps each fault kind to its settings
(`MultiFaultConfig`; `Object.entries` of a config object built by
`createDefaultMultiFaultConfig` enumerates keys in `FAULT_TYPE_KEYS` order). -/
def MultiFaultConfig : Type := FaultTypeKey → FaultConfig

/-- `createDefaultMultiFaultConfig`: every kind disabled, severity 3, 50 Hz. -/
noncomputable def createDefaultMultiFaultConfig : MultiFaultConfig :=
  fun _ => ⟨false, 3, 50⟩

/-- `applyMultiFault`: fold the enabled faults (severity > 0) over the signal in
enumeration order; magnitude is `severity * 0.4`.  `rnd k` is the random stream
consumed by the `applyFault` call for kind `k`. -/
noncomputable def applyMultiFault (signal t : List ℝ) (config : MultiFaultConfig)
    (rnd : FaultTypeKey → ℕ → ℝ) : List ℝ :=
  FAULT_TYPE_KEYS.foldl
    (fun result k =>
      if (config k).enabled = true ∧ (config k).severity > 0 then
        applyFault result t (some k) ⟨(config k).severity * 0.4, (config k).frequency⟩ (rnd k)
      else result)
    signal

/-! ### Claim C8 — time vector and signal lengths -/

theorem generateTimeVector_eq (p : SignalParams) :
    generateTimeVector p = (List.range ⌊p.samplingRate * p.duration⌋₊).map
      (fun (i : ℕ) => (i : ℝ) * (1 / p.samplingRate)) := rfl

theorem generateTimeVector_length (p : SignalParams) :
    (generateTimeVector p).length = ⌊p.samplingRate * p.duration⌋₊ := by
  rw [generateTimeVector_eq, List.length_map, List.length_range]

theorem generateTimeVector_get (p : SignalParams) (i : ℕ)
    (h : i < (generateTimeVector p).length) :
    (generateTimeVector p).get ⟨i, h⟩ = i / p.samplingRate := by
  simp only [generateTimeVector_eq, List.get_eq_getElem, List.getElem_map, List.getElem_range]
  rw [mul_one_div]

theorem generateSignal_length (ty : SignalType) (p : SignalParams) (t : List ℝ)
    (rnd : ℕ → ℝ) : (generateSignal ty p t rnd).length = t.length := by
  cases ty <;> simp [generateSignal, generateHarmonicSignal]

/-- Claim C8: for sampling rate `Fs > 0` and duration `T ≥ 0`,
`generateTimeVector` yields exactly `⌊Fs*T⌋` samples `t[n] = n / Fs`, strictly
increasing with uniform spacing `1/Fs`, and `generateSignal` maps the time
vector to an equally long amplitude list for every signal type. -/
theorem timeVector_and_signal_spec (p : SignalParams)
    (hFs : 0 < p.samplingRate) (hT : 0 ≤ p.duration) :
    (generateTimeVector p).length = ⌊p.samplingRate * p.duration⌋₊ ∧
    (∀ i (h : i < (generateTimeVector p).length),
      (generateTimeVector p).get ⟨i, h⟩ = i / p.samplingRate) ∧
    (∀ i (h : i + 1 < (generateTimeVector p).length),
      (generateTimeVector p).get ⟨i + 1, h⟩ -
        (generateTimeVector p).get ⟨i, Nat.lt_of_succ_lt h⟩ = 1 / p.samplingRate) ∧
    (∀ i (h : i + 1 < (generateTimeVector p).length),
      (generateTimeVector p).get ⟨i, Nat.lt_of_succ_lt h⟩ <
        (generateTimeVector p).get ⟨i + 1, h⟩) ∧
    (∀ ty (rnd : ℕ → ℝ),
      (generateSignal ty p (generateTimeVector p) rnd).length =
        (generateTimeVector p).length) := by
  refine ⟨generateTimeVector_length p, generateTimeVector_get p, ?_, ?_, ?_⟩
  · intro i h
    rw [generateTimeVector_get, generateTimeVector_get]
    push_cast
    field_simp
  · intro i h
    rw [generateTimeVector_get, generateTimeVector_get]
    refine (div_lt_div_iff_of_pos_right hFs).mpr ?_
    push_cast
    linarith
  · intro ty rnd
    exact generateSignal_length ty p (generateTimeVector p) rnd

/-- Witness for C8 at the engine's default parameters. -/
theorem timeVector_and_signal_spec_witness :
    (0 : ℝ) < 1000 ∧ (0 : ℝ) ≤ 1 ∧
    (generateTimeVector ⟨1, 5, 0, 0, 1000, 1, none⟩).length = 1000 := by
  refine ⟨by norm_num, by norm_num, ?_⟩
  have h := (timeVector_and_signal_spec ⟨1, 5, 0, 0, 1000, 1, none⟩
    (by norm_num) (by norm_num)).1
  rw [h]
  norm_num

/-! ### Modulation engine (modulation engine source, `src/unnamed/part_010`) -/

/-- Modulation parameters (`ModParams`).  The engine documents `bits` as a binary
0/1 integer sequence (spec §6: "bit sequences (as 0/1 integer sequences)"),
so bits are embedded as naturals. -/
structure ModParams where
  Ac : ℝ
  Fc : ℝ
  Am : ℝ
  Fm : ℝ
  Fs : ℝ
  T : ℝ
  ka : ℝ
  beta : ℝ
  kp : ℝ
  bitRate : ℝ
  bits : List ℕ
  F1 : ℝ
  F0 : ℝ

/-- `DEFAULT_MOD_PARAMS`. -/
noncomputable def DEFAULT_MOD_PARAMS : ModParams :=
  ⟨1, 100, 0.5, 10, 5000, 0.2, 0.5, 2, 1, 20, [1, 0, 1, 1, 0, 1, 0, 0], 150, 50⟩

/-- `generateModTimeVector`: `⌊Fs*T⌋` samples at `i / Fs`. -/
noncomputable def generateModTimeVector (Fs T : ℝ) : List ℝ :=
  (List.range ⌊Fs * T⌋₊).map (fun (i : ℕ) => (i : ℝ) * (1 / Fs))

/-- `bitIndex`: `Math.floor(t * bitRate)`. -/
noncomputable def bitIndex (t bitRate : ℝ) : ℤ := ⌊t * bitRate⌋

/-- `getBit`: empty bit lists read as 0, otherwise the bit at `idx % bits.length`.
(For the nonnegative indices produced by the engine's nonnegative time vectors,
JS `%` agrees with `Int.emod`.) -/
def getBit (bits : List ℕ) (idx : ℤ) : ℕ :=
  if bits.length = 0 then 0 else bits.getD (idx % (bits.length : ℤ)).toNat 0

/-- `modulateASK`: the carrier gated by the current bit. -/
noncomputable def modulateASK (t : List ℝ) (p : ModParams) : List ℝ :=
  t.map fun ti =>
    p.Ac * (getBit p.bits (bitIndex ti p.bitRate) : ℝ) * Real.sin (2 * π * p.Fc * ti)

/-- The QPSK phase table `PHASES = [0, PI/2, PI, 3*PI/2]`. -/
noncomputable def QPSK_PHASES : List ℝ := [0, π / 2, π, 3 * π / 2]

/-- The symbol-pair → phase map inlined in `modulateQPSK`:
`PHASES[b0 * 2 + b1]` (out-of-range reads return the JS `undefined`; they are
unreachable for 0/1 bits and read as `0` here). -/
noncomputable def codeQpskPhase (b0 b1 : ℕ) : ℝ := QPSK_PHASES.getD (b0 * 2 + b1) 0

/-- `modulateQPSK`: pairs of bits at symbol rate `bitRate / 2` select a phase
via `codeQpskPhase`. -/
noncomputable def modulateQPSK (t : List ℝ) (p : ModParams) : List ℝ :=
  let symRate := p.bitRate / 2
  t.map fun ti =>
    let symIdx : ℤ := ⌊ti * symRate⌋
    let bitIdx0 := symIdx * 2
    let b0 := getBit p.bits bitIdx0
    let b1 := getBit p.bits (bitIdx0 + 1)
    p.Ac * Real.sin (2 * π * p.Fc * ti + codeQpskPhase b0 b1)

/-! ### Claim C10 — totality of the digital modulators on empty bit sequences -/

/-- Claim C10: `getBit` on an empty bit sequence returns 0 for any index (no
`idx % 0` is evaluated), and `modulateASK` with empty bits is the all-zero
signal of the time vector's length. -/
theorem getBit_empty_and_modulateASK_zero (t : List ℝ) (p : ModParams) (idx : ℤ)
    (h : p.bits = []) :
    getBit p.bits idx = 0 ∧ modulateASK t p = t.map (fun _ => 0) := by
  constructor
  · simp [getBit, h]
  · unfold modulateASK
    refine List.map_congr_left (fun ti _ => ?_)
    simp [getBit, h]

/-- Witness for C10 on a concrete two-sample time vector. -/
theorem getBit_empty_and_modulateASK_zero_witness :
    ({ DEFAULT_MOD_PARAMS with bits := [] } : ModParams).bits = [] ∧
    getBit ({ DEFAULT_MOD_PARAMS with bits := [] } : ModParams).bits (-7) = 0 ∧
    modulateASK [0, 0.1] { DEFAULT_MOD_PARAMS with bits := [] } = [0, 0] := by
  have h := getBit_empty_and_modulateASK_zero [0, 0.1]
    { DEFAULT_MOD_PARAMS with bits := [] } (-7) rfl
  exact ⟨rfl, h.1, h.2⟩

/-! ### Claim C2 — the QPSK symbol mapping -/

/-- Number of coordinates in which two bit pairs differ. -/
def hamming2 (x y : ℕ × ℕ) : ℕ :=
  (if x.1 = y.1 then 0 else 1) + (if x.2 = y.2 then 0 else 1)

/-- Gray coding of the implemented QPSK constellation, as the claim states it:
bit pairs whose phases are adjacent on the circle (90° apart) differ in exactly
one bit. -/
def QpskGrayCoded : Prop :=
  ∀ x y : ℕ × ℕ, x.1 ≤ 1 → x.2 ≤ 1 → y.1 ≤ 1 → y.2 ≤ 1 →
    |codeQpskPhase x.1 x.2 - codeQpskPhase y.1 y.2| = π / 2 →
    hamming2 x y = 1

/-- Counterexample for C2: the implemented mapping is the natural binary one,
not Gray-coded.  The pairs `01` and `10` differ in both bits yet map to the
adjacent phases 90° and 180°: with `Ac = 1` and a sample at `t = 0`,
`modulateQPSK` emits `sin(90°) = 1` for bits `[0,1]` and `sin(180°) = 0` for
bits `[1,0]`, and `QpskGrayCoded` fails. -/
theorem modulateQPSK_not_gray_coded :
    modulateQPSK [0] { DEFAULT_MOD_PARAMS with bits := [0, 1] } = [1] ∧
    modulateQPSK [0] { DEFAULT_MOD_PARAMS with bits := [1, 0] } = [0] ∧
    ¬QpskGrayCoded := by
  refine ⟨?_, ?_, ?_⟩
  · simp [modulateQPSK, DEFAULT_MOD_PARAMS, getBit, codeQpskPhase, QPSK_PHASES]
  · simp [modulateQPSK, DEFAULT_MOD_PARAMS, getBit, codeQpskPhase, QPSK_PHASES]
  · intro hgray
    have h := hgray (0, 1) (1, 0) (by norm_num) (by norm_num) (by norm_num) (by norm_num) ?_
    · simp [hamming2] at h
    · simp only [codeQpskPhase, QPSK_PHASES]
      norm_num [List.getD]
      rw [abs_of_nonpos (by linarith [Real.pi_pos])]
      ring

/-- QPSK modulation written from the spec's words (§4.4), with the pair → phase
mapping amended to the natural binary one actually implemented: bits are grouped
in consecutive pairs at symbol rate `bitRate / 2` (symbol index
`⌊t * symRate⌋`, bits consulted modulo their length via `getBit`), the pair
`(b0, b1)` selects the phase `00 → 0°`, `01 → 90°`, `10 → 180°`, `11 → 270°`,
and the sample is `Ac * sin(2π Fc t + phase)`. -/
noncomputable def qpskSpecSignal (t : List ℝ) (p : ModParams) : List ℝ :=
  t.map fun ti =>
    let symRate := p.bitRate / 2
    let symIdx : ℤ := ⌊ti * symRate⌋
    let b0 := getBit p.bits (2 * symIdx)
    let b1 := getBit p.bits (2 * symIdx + 1)
    let phase : ℝ :=
      match b0, b1 with
      | 0, 0 => 0
      | 0, 1 => π / 2
      | 1, 0 => π
      | _, _ => 3 * π / 2
    p.Ac * Real.sin (2 * π * p.Fc * ti + phase)

theorem getBit_le_one {bits : List ℕ} (hbits : ∀ b ∈ bits, b ≤ 1) (idx : ℤ) :
    getBit bits idx ≤ 1 := by
  unfold getBit
  split
  · exact Nat.zero_le 1
  · rcases Nat.lt_or_ge (idx % (bits.length : ℤ)).toNat bits.length with hlt | hge
    · rw [List.getD_eq_getElem _ _ hlt]
      exact hbits _ (List.getElem_mem _)
    · rw [List.getD_eq_default _ _ hge]
      exact Nat.zero_le 1

/-- Claim C2 (amended): for bit sequences of 0/1 values, `modulateQPSK` computes
exactly the spec-level QPSK signal `qpskSpecSignal` — consecutive bit pairs at
symbol rate `bitRate / 2`, mapped by the natural binary (not Gray) code
`00 → 0°, 01 → 90°, 10 → 180°, 11 → 270°` onto `Ac * sin(2π Fc t + phase)`. -/
theorem modulateQPSK_eq_spec (t : List ℝ) (p : ModParams)
    (hbits : ∀ b ∈ p.bits, b ≤ 1) :
    modulateQPSK t p = qpskSpecSignal t p := by
  unfold modulateQPSK qpskSpecSignal
  refine List.map_congr_left (fun ti _ => ?_)
  dsimp only
  rw [mul_comm (⌊ti * (p.bitRate / 2)⌋) 2]
  have hb0 := getBit_le_one hbits (2 * ⌊ti * (p.bitRate / 2)⌋)
  have hb1 := getBit_le_one hbits (2 * ⌊ti * (p.bitRate / 2)⌋ + 1)
  set b0 := getBit p.bits (2 * ⌊ti * (p.bitRate / 2)⌋) with hb0def
  set b1 := getBit p.bits (2 * ⌊ti * (p.bitRate / 2)⌋ + 1) with hb1def
  interval_cases b0 <;> interval_cases b1 <;>
    simp [codeQpskPhase, QPSK_PHASES]

/-- Witness for C2's amended theorem on the default parameters (whose bit
sequence is 0/1-valued) and a concrete two-sample time vector. -/
theorem modulateQPSK_eq_spec_witness :
    (∀ b ∈ DEFAULT_MOD_PARAMS.bits, b ≤ 1) ∧
    modulateQPSK [0, 0.05] DEFAULT_MOD_PARAMS = qpskSpecSignal [0, 0.05] DEFAULT_MOD_PARAMS := by
  refine ⟨?_, modulateQPSK_eq_spec _ _ ?_⟩ <;>
    · intro b hb
      simp only [DEFAULT_MOD_PARAMS, List.mem_cons, List.not_mem_nil, or_false] at hb
      omega

/-! ### Claim C7 — disabled / zero-severity fault configurations are no-ops -/

theorem multiFault_fold_inactive (signal t : List ℝ) (config : MultiFaultConfig)
    (rnd : FaultTypeKey → ℕ → ℝ)
    (h : ∀ k, (config k).enabled = false ∨ (config k).severity = 0)
    (l : List FaultTypeKey) :
    l.foldl
      (fun result k =>
        if (config k).enabled = true ∧ (config k).severity > 0 then
          applyFault result t (some k) ⟨(config k).severity * 0.4, (config k).frequency⟩ (rnd k)
        else result)
      signal = signal := by
  induction l with
  | nil => rfl
  | cons k l ih =>
      rw [List.foldl_cons, if_neg, ih]
      rcases h k with hk | hk
      · simp [hk]
      · simp [hk]

/-- Claim C7: `applyMultiFault` with every fault kind disabled or of severity 0
returns the signal element-wise unchanged; in particular severity 0 makes every
individual kind a no-op inside the pipeline (its `applyFault` call is skipped). -/
theorem applyMultiFault_inactive_noop (signal t : List ℝ) (config : MultiFaultConfig)
    (rnd : FaultTypeKey → ℕ → ℝ)
    (h : ∀ k, (config k).enabled = false ∨ (config k).severity = 0) :
    applyMultiFault signal t config rnd = signal :=
  multiFault_fold_inactive signal t config rnd h FAULT_TYPE_KEYS

/-- Witness for C7: the default all-disabled configuration fixes a concrete
signal. -/
theorem applyMultiFault_inactive_noop_witness :
    (∀ k, (createDefaultMultiFaultConfig k).enabled = false ∨
      (createDefaultMultiFaultConfig k).severity = 0) ∧
    applyMultiFault [1, -2, 0.5] [0, 0.001, 0.002] createDefaultMultiFaultConfig
      (fun _ _ => 0.5) = [1, -2, 0.5] := by
  refine ⟨fun k => Or.inl rfl, ?_⟩
  exact applyMultiFault_inactive_noop _ _ _ _ (fun k => Or.inl rfl)

/-! ### Sweep generator (src/lib/signalEngine.ts `generateSweepSignal`) -/

/-- `SweepTypeBase`. -/
inductive SweepTypeBase
  | linear | logarithmic
  deriving DecidableEq

/-- `SweepParams`. -/
structure SweepParams where
  enabled : Bool
  type : SweepTypeBase
  fStart : ℝ
  fStop : ℝ
  aStart : ℝ
  aStop : ℝ
  pStart : ℝ
  pStop : ℝ
  duration : ℝ

/-- `generateSweepSignal`, returning `(signal, instFreq)`.  The logarithmic
branch degenerates to the linear chirp formula when
`Math.abs(fStart - fStop) < 0.001 || r <= 1.0`; otherwise it emits the
closed-form log-sweep phase `2π fStart (Ts / ln r) (r^(t/Ts) - 1)` plus the
linearly interpolated phase offset (`Math.pow` on the positive ratio `r` is
`Real.rpow`). -/
noncomputable def generateSweepSignal (params : SweepParams) (t : List ℝ) :
    List ℝ × List ℝ :=
  let Ts := params.duration
  let fStart := params.fStart
  let fStop := params.fStop
  let ka := (params.aStop - params.aStart) / Ts
  let kp := (params.pStop - params.pStart) / Ts
  match params.type with
  | .linear =>
      let kf := (fStop - fStart) / Ts
      ⟨t.map fun ti => (params.aStart + ka * ti) *
          Real.sin (2 * π * (fStart * ti + 0.5 * kf * ti * ti) + (params.pStart + kp * ti)),
       t.map fun ti => fStart + kf * ti⟩
  | .logarithmic =>
      let r := fStop / fStart
      if |fStart - fStop| < 0.001 ∨ r ≤ 1 then
        let kf := (fStop - fStart) / Ts
        ⟨t.map fun ti => (params.aStart + ka * ti) *
            Real.sin (2 * π * (fStart * ti + 0.5 * kf * ti * ti) + (params.pStart + kp * ti)),
         t.map fun ti => fStart + kf * ti⟩
      else
        let lnR := Real.log r
        ⟨t.map fun ti => (params.aStart + ka * ti) *
            Real.sin (2 * π * fStart * (Ts / lnR) * (r ^ (ti / Ts) - 1) +
              (params.pStart + kp * ti)),
         t.map fun ti => fStart * r ^ (ti / Ts)⟩

/-! ### Claim C3 — logarithmic sweep phase and its degenerate fallback -/

/-- Claim C3: for a `logarithmic` sweep with `fStart > 0`,
`r = fStop / fStart > 1` and endpoints not numerically equal
(`|fStart - fStop| ≥ 0.001`), every sample is
`a(t) * sin(2π fStart (T / ln r) (r^(t/T) - 1) + p(t))` with the linearly
interpolated amplitude and phase offset; and whenever `r ≤ 1` or the endpoints
are numerically equal, the signal degenerates to the linear-sweep formula
`φ(t) = 2π (fStart t + 0.5 k t²)` instead of evaluating `log` of a ratio ≤ 1. -/
theorem generateSweepSignal_logarithmic_spec (params : SweepParams) (t : List ℝ)
    (htype : params.type = .logarithmic) (hpos : 0 < params.fStart) :
    (¬ |params.fStart - params.fStop| < 0.001 → 1 < params.fStop / params.fStart →
      (generateSweepSignal params t).1 = t.map fun ti =>
        (params.aStart + (params.aStop - params.aStart) / params.duration * ti) *
          Real.sin
            (2 * π * params.fStart * (params.duration / Real.log (params.fStop / params.fStart)) *
              ((params.fStop / params.fStart) ^ (ti / params.duration) - 1) +
              (params.pStart + (params.pStop - params.pStart) / params.duration * ti))) ∧
    (|params.fStart - params.fStop| < 0.001 ∨ params.fStop / params.fStart ≤ 1 →
      (generateSweepSignal params t).1 = t.map fun ti =>
        (params.aStart + (params.aStop - params.aStart) / params.duration * ti) *
          Real.sin
            (2 * π * (params.fStart * ti +
                0.5 * ((params.fStop - params.fStart) / params.duration) * ti * ti) +
              (params.pStart + (params.pStop - params.pStart) / params.duration * ti))) := by
  constructor
  · intro h1 h2
    unfold generateSweepSignal
    rw [htype]
    dsimp only
    rw [if_neg]
    rw [not_or]
    exact ⟨h1, not_le.mpr h2⟩
  · intro hdeg
    unfold generateSweepSignal
    rw [htype]
    dsimp only
    rw [if_pos]
    rcases hdeg with h | h
    · exact Or.inl h
    · exact Or.inr h

/-- Witness for C3, exercising both the genuine logarithmic branch
(`fStart = 10, fStop = 100`) and the degenerate fallback (`fStop = 5 < fStart`). -/
theorem generateSweepSignal_logarithmic_spec_witness :
    (({ enabled := true, type := .logarithmic, fStart := 10, fStop := 100, aStart := 1,
        aStop := 1, pStart := 0, pStop := 0, duration := 1 } : SweepParams).type =
          SweepTypeBase.logarithmic ∧
      (0 : ℝ) < 10 ∧ ¬ |(10 : ℝ) - 100| < 0.001 ∧ (1 : ℝ) < 100 / 10) ∧
    (generateSweepSignal
        { enabled := true, type := .logarithmic, fStart := 10, fStop := 100, aStart := 1,
          aStop := 1, pStart := 0, pStop := 0, duration := 1 } [0.5]).1 =
      [(1 + (1 - 1) / 1 * 0.5) *
        Real.sin (2 * π * 10 * (1 / Real.log (100 / 10)) *
          ((100 / 10 : ℝ) ^ ((0.5 : ℝ) / 1) - 1) + (0 + (0 - 0) / 1 * 0.5))] ∧
    (generateSweepSignal
        { enabled := true, type := .logarithmic, fStart := 10, fStop := 5, aStart := 1,
          aStop := 1, pStart := 0, pStop := 0, duration := 1 } [0.5]).1 =
      [(1 + (1 - 1) / 1 * 0.5) *
        Real.sin (2 * π * (10 * 0.5 + 0.5 * ((5 - 10) / 1) * 0.5 * 0.5) +
          (0 + (0 - 0) / 1 * 0.5))] := by
  refine ⟨⟨rfl, by norm_num, by norm_num, by norm_num⟩, ?_, ?_⟩
  · have h := (generateSweepSignal_logarithmic_spec
      { enabled := true, type := .logarithmic, fStart := 10, fStop := 100, aStart := 1,
        aStop := 1, pStart := 0, pStop := 0, duration := 1 } [0.5] rfl (by norm_num)).1
      (by norm_num) (by norm_num)
    rw [h]
    norm_num
  · have h := (generateSweepSignal_logarithmic_spec
      { enabled := true, type := .logarithmic, fStart := 10, fStop := 5, aStart := 1,
        aStop := 1, pStart := 0, pStop := 0, duration := 1 } [0.5] rfl (by norm_num)).2
      (by norm_num)
    rw [h]
    norm_num

/-! ### Transfer-function evaluation (src/lib/signalEngine.ts `evaluateTF`) -/

/-- `TransferFunction`: numerator/denominator coefficients in descending powers
of `s`. -/
structure TransferFunction where
  num : List ℝ
  den : List ℝ

/-- The inner `evalPoly` of `evaluateTF`: Horner's method on a real-coefficient
polynomial at a complex point.  The source's explicit
`(nextRe, nextIm) = (resRe*s.re - resIm*s.im + c, resRe*s.im + resIm*s.re)`
is exactly the complex `res * s + c`. -/
noncomputable def evalPoly (coeffs : List ℝ) (s : ℂ) : ℂ :=
  coeffs.foldl (fun res c => res * s + (c : ℂ)) 0

/-- Result of `evaluateTF`: either the `{re: Infinity, im: 0}` sentinel (an
infinite magnitude, not representable in `ℝ`) or a finite complex value. -/
inductive TFValue
  | infiniteMagnitude
  | finite (value : ℂ)

/-- `evaluateTF`: Horner-evaluate both polynomials, then divide as complex
numbers via `n * conj d / |d|²`, returning the infinite sentinel when
`denSq = 0`. -/
noncomputable def evaluateTF (tf : TransferFunction) (s : ℂ) : TFValue :=
  let n := evalPoly tf.num s
  let d := evalPoly tf.den s
  let denSq := d.re * d.re + d.im * d.im
  if denSq = 0 then .infiniteMagnitude
  else .finite ⟨(n.re * d.re + n.im * d.im) / denSq, (n.im * d.re - n.re * d.im) / denSq⟩

/-! ### Claim C5 — zero denominators yield the sentinel, else the exact quotient -/

theorem denSq_eq_normSq (d : ℂ) : d.re * d.re + d.im * d.im = Complex.normSq d := by
  simp [Complex.normSq_apply]

/-- Claim C5: at `s = jω`, a denominator that Horner-evaluates to exactly zero
makes `evaluateTF` return the infinite-magnitude sentinel (no exception path),
and a nonzero denominator makes it return exactly the complex quotient of the
Horner-evaluated numerator and denominator. -/
theorem evaluateTF_sentinel_or_quotient (tf : TransferFunction) (ω : ℝ) :
    (evalPoly tf.den ⟨0, ω⟩ = 0 → evaluateTF tf ⟨0, ω⟩ = .infiniteMagnitude) ∧
    (evalPoly tf.den ⟨0, ω⟩ ≠ 0 →
      evaluateTF tf ⟨0, ω⟩ =
        .finite (evalPoly tf.num ⟨0, ω⟩ / evalPoly tf.den ⟨0, ω⟩)) := by
  constructor
  · intro hd
    unfold evaluateTF
    rw [if_pos]
    rw [denSq_eq_normSq, hd]
    simp
  · intro hd
    unfold evaluateTF
    rw [if_neg]
    · congr 1
      apply Complex.ext
      · rw [Complex.div_re, denSq_eq_normSq]
        ring
      · rw [Complex.div_im, denSq_eq_normSq]
        ring
    · rw [denSq_eq_normSq]
      exact fun h => hd (Complex.normSq_eq_zero.mp h)

/-- Witness for C5: `H(s) = 1/(s+1)` at `ω = 0` hits the quotient branch, and
`H(s) = 1/s` at `ω = 0` hits the sentinel branch. -/
theorem evaluateTF_sentinel_or_quotient_witness :
    (evalPoly ([1, 1] : List ℝ) ⟨0, 0⟩ ≠ 0 ∧
      evaluateTF ⟨[1], [1, 1]⟩ ⟨0, 0⟩ =
        .finite (evalPoly ([1] : List ℝ) ⟨0, 0⟩ / evalPoly ([1, 1] : List ℝ) ⟨0, 0⟩)) ∧
    (evalPoly ([1, 0] : List ℝ) ⟨0, 0⟩ = 0 ∧
      evaluateTF ⟨[1], [1, 0]⟩ ⟨0, 0⟩ = .infiniteMagnitude) := by
  have h1 : evalPoly ([1, 1] : List ℝ) ⟨0, 0⟩ = 1 := by
    simp [evalPoly, Complex.ext_iff]
  have h0 : evalPoly ([1, 0] : List ℝ) ⟨0, 0⟩ = 0 := by
    simp [evalPoly, Complex.ext_iff]
  refine ⟨⟨by rw [h1]; norm_num, ?_⟩, h0, ?_⟩
  · exact (evaluateTF_sentinel_or_quotient ⟨[1], [1, 1]⟩ 0).2 (by rw [h1]; norm_num)
  · exact (evaluateTF_sentinel_or_quotient ⟨[1], [1, 0]⟩ 0).1 h0

/-! ### Bode plot (src/lib/signalEngine.ts `computeBodePlot`) -/

/-- The first unwrap loop of `computeBodePlot`:
`while (phaseDeg - lastPhase > 180) phaseDeg -= 360`. -/
noncomputable def unwrapDown (last p : ℝ) : ℝ :=
  if h : 180 < p - last then unwrapDown last (p - 360) else p
termination_by (⌈(p - last) / 360⌉).toNat
decreasing_by
  have h1 : (1 : ℝ) / 2 < (p - last) / 360 := by linarith
  have h2 : (p - 360 - last) / 360 = (p - last) / 360 - 1 := by ring
  have h3 : 0 < ⌈(p - last) / 360⌉ := Int.ceil_pos.mpr (by linarith)
  rw [h2, Int.ceil_sub_one]
  omega

/-- The second unwrap loop of `computeBodePlot`:
`while (phaseDeg - lastPhase < -180) phaseDeg += 360`. -/
noncomputable def unwrapUp (last p : ℝ) : ℝ :=
  if h : p - last < -180 then unwrapUp last (p + 360) else p
termination_by (⌈(last - p) / 360⌉).toNat
decreasing_by
  have h1 : (1 : ℝ) / 2 < (last - p) / 360 := by linarith
  have h2 : (last - (p + 360)) / 360 = (last - p) / 360 - 1 := by ring
  have h3 : 0 < ⌈(last - p) / 360⌉ := Int.ceil_pos.mpr (by linarith)
  rw [h2, Int.ceil_sub_one]
  omega

/-- Both unwrap loops in the source's order. -/
noncomputable def adjustPhase (last p : ℝ) : ℝ := unwrapUp last (unwrapDown last p)

theorem unwrapDown_sub_le (last p : ℝ) : unwrapDown last p - last ≤ 180 := by
  refine unwrapDown.induct last (fun q => unwrapDown last q - last ≤ 180) ?_ ?_ p
  · intro q h ih
    rwa [unwrapDown, dif_pos h]
  · intro q h
    rw [unwrapDown, dif_neg h]
    linarith [not_lt.mp h]

theorem unwrapUp_sub_ge (last p : ℝ) : -180 ≤ unwrapUp last p - last := by
  refine unwrapUp.induct last (fun q => -180 ≤ unwrapUp last q - last) ?_ ?_ p
  · intro q h ih
    rwa [unwrapUp, dif_pos h]
  · intro q h
    rw [unwrapUp, dif_neg h]
    linarith [not_lt.mp h]

theorem unwrapUp_sub_le (last p : ℝ) (hle : p - last ≤ 180) :
    unwrapUp last p - last ≤ 180 := by
  refine unwrapUp.induct last
    (fun q => q - last ≤ 180 → unwrapUp last q - last ≤ 180) ?_ ?_ p hle
  · intro q h ih _
    rw [unwrapUp, dif_pos h]
    exact ih (by linarith)
  · intro q h hq
    rwa [unwrapUp, dif_neg h]

theorem abs_adjustPhase_sub_le (last p : ℝ) : |adjustPhase last p - last| ≤ 180 :=
  abs_le.mpr ⟨unwrapUp_sub_ge last (unwrapDown last p),
    unwrapUp_sub_le last (unwrapDown last p) (unwrapDown_sub_le last p)⟩

/-- One Bode sample (`BodePoint`): frequency (Hz), magnitude (dB), phase (deg). -/
structure BodePoint where
  frequency : ℝ
  magnitude : ℝ
  phase : ℝ

/-- The magnitude/raw-phase pair the source computes from `evaluateTF`'s result
(`sqrt(re² + im²)` and `atan2(im, re) * 180 / π`, the latter being
`Complex.arg`).  The sentinel's IEEE magnitude `sqrt(∞² + 0²) = ∞` has no
representative in `ℝ`; its phase `atan2(0, ∞) = 0` does.  No claim in this file
depends on the sentinel's magnitude placeholder. -/
noncomputable def bodeMagPhase : TFValue → ℝ × ℝ
  | .infiniteMagnitude => (0, 0)
  | .finite v => (Real.sqrt (v.re * v.re + v.im * v.im), Complex.arg v * 180 / π)

/-- `computeBodePlot`: log-spaced frequency grid, dB magnitude floored at
`1e-12` (`magnitude || 1e-12`), and phase unwrapped against the previous point
by the two ±360° loops. -/
noncomputable def computeBodePlot (tf : TransferFunction) (startFreq stopFreq : ℝ)
    (points : ℕ) : List BodePoint :=
  let logStart := Real.logb 10 startFreq
  let logStop := Real.logb 10 stopFreq
  let step := (logStop - logStart) / ((points : ℝ) - 1)
  (List.range points).foldl
    (fun bode (i : ℕ) =>
      let freq := (10 : ℝ) ^ (logStart + (i : ℝ) * step)
      let omega := 2 * π * freq
      let mp := bodeMagPhase (evaluateTF tf ⟨0, omega⟩)
      let magDb := 20 * Real.logb 10 (if mp.1 = 0 then 1e-12 else mp.1)
      let phaseDeg :=
        match bode.getLast? with
        | none => mp.2
        | some lastPt => adjustPhase lastPt.phase mp.2
      bode ++ [⟨freq, magDb, phaseDeg⟩])
    []

/-! ### Claim C6 — consecutive Bode phases never differ by more than 180° -/

/-- Appending one element whose relation to the previous last element holds
preserves `Chain'`. -/
theorem chain'_append_singleton {α : Type} {P : α → α → Prop} {l : List α} {x : α}
    (hl : List.Chain' P l) (hx : ∀ a, l.getLast? = some a → P a x) :
    List.Chain' P (l ++ [x]) := by
  rw [List.chain'_append]
  refine ⟨hl, List.chain'_singleton x, ?_⟩
  intro a ha y hy
  simp only [List.head?_cons, Option.mem_def, Option.some.injEq] at hy
  exact hy ▸ hx a ha

theorem bodePhaseStep_chain (tf : TransferFunction) (startFreq stopFreq : ℝ)
    (points : ℕ) :
    List.Chain' (fun a b : BodePoint => |b.phase - a.phase| ≤ 180)
      (computeBodePlot tf startFreq stopFreq points) := by
  unfold computeBodePlot
  generalize List.range points = idxs
  induction idxs using List.reverseRecOn with
  | nil => exact List.chain'_nil
  | append_singleton l i ih =>
      rw [List.foldl_append, List.foldl_cons, List.foldl_nil]
      apply chain'_append_singleton ih
      intro a ha
      simp only [ha]
      exact abs_adjustPhase_sub_le a.phase _

/-- Claim C6: for every transfer function, positive frequency bounds and point
count ≥ 2, consecutive `computeBodePlot` phases differ by at most 180° (the
±360° unwrap loops enforce the invariant). -/
theorem computeBodePlot_phase_unwrapped (tf : TransferFunction)
    (startFreq stopFreq : ℝ) (points : ℕ)
    (hstart : 0 < startFreq) (hstop : 0 < stopFreq) (hpoints : 2 ≤ points) :
    List.Chain' (fun a b : BodePoint => |b.phase - a.phase| ≤ 180)
      (computeBodePlot tf startFreq stopFreq points) :=
  bodePhaseStep_chain tf startFreq stopFreq points

set_option maxRecDepth 4000 in
/-- Witness for C6: the first-order low-pass `H(s) = 1/(s+1)` over
`[0.1, 10] Hz` with 4 points. -/
theorem computeBodePlot_phase_unwrapped_witness :
    (0 : ℝ) < 0.1 ∧ (0 : ℝ) < 10 ∧ 2 ≤ 4 ∧
    List.Chain' (fun a b : BodePoint => |b.phase - a.phase| ≤ 180)
      (computeBodePlot ⟨[1], [1, 1]⟩ 0.1 10 4) :=
  ⟨by norm_num, by norm_num, by norm_num,
    computeBodePlot_phase_unwrapped ⟨[1], [1, 1]⟩ 0.1 10 4 (by norm_num) (by norm_num)
      (by norm_num)⟩

/-! ### Next power of two

Both `computeFFT` (`let N = 1; while (N < clean.length) N *= 2`) and the
modulation engine's `computeModFFT` / `hilbert` (`let N = 1; while (N < nProc)
N <<= 1`) grow `N` by doubling from 1; `nextPow2` is that loop (the fuel
`len` strictly bounds the number of doublings needed from 1). -/

def nextPow2Go : ℕ → ℕ → ℕ → ℕ
  | 0, N, _ => N
  | fuel + 1, N, len => if N < len then nextPow2Go fuel (2 * N) len else N

def nextPow2 (len : ℕ) : ℕ := nextPow2Go len 1 len

theorem nextPow2Go_pow {fuel len N : ℕ} (h : ∃ k, N = 2 ^ k) :
    ∃ k, nextPow2Go fuel N len = 2 ^ k := by
  induction fuel generalizing N with
  | zero => exact h
  | succ fuel ih =>
      rw [nextPow2Go]
      split
      · obtain ⟨k, rfl⟩ := h
        exact ih ⟨k + 1, by ring⟩
      · exact h

theorem nextPow2Go_ge {fuel len N : ℕ} (hN : 0 < N) (hfuel : len ≤ N + fuel) :
    len ≤ nextPow2Go fuel N len := by
  induction fuel generalizing N with
  | zero => simpa using hfuel
  | succ fuel ih =>
      rw [nextPow2Go]
      split
      · exact ih (by omega) (by omega)
      · omega

theorem nextPow2_pow (len : ℕ) : ∃ k, nextPow2 len = 2 ^ k :=
  nextPow2Go_pow ⟨0, rfl⟩

theorem nextPow2_ge (len : ℕ) : len ≤ nextPow2 len :=
  nextPow2Go_ge one_pos (by omega)

theorem nextPow2Go_pow_eq {k t fuel : ℕ} (ht : t ≤ k) (hfuel : k - t ≤ fuel) :
    nextPow2Go fuel (2 ^ t) (2 ^ k) = 2 ^ k := by
  induction fuel generalizing t with
  | zero =>
      have : t = k := by omega
      subst this
      rfl
  | succ fuel ih =>
      rw [nextPow2Go]
      split
      · rename_i hlt
        have htk : t < k := by
          by_contra hc
          have : t = k := by omega
          subst this
          exact lt_irrefl _ hlt
        have h2 : 2 * 2 ^ t = 2 ^ (t + 1) := by ring
        rw [h2]
        exact ih (by omega) (by omega)
      · rename_i hge
        have h1 : 2 ^ t ≤ 2 ^ k := Nat.pow_le_pow_right (by norm_num) ht
        omega

/-- `nextPow2` fixes exact powers of two. -/
theorem nextPow2_pow_self (k : ℕ) : nextPow2 (2 ^ k) = 2 ^ k := by
  unfold nextPow2
  have h1 : (1 : ℕ) = 2 ^ 0 := rfl
  rw [h1]
  exact nextPow2Go_pow_eq (Nat.zero_le k) (by
    have := Nat.lt_two_pow k
    omega)

/-! ### Bit reversal -/

/-- Reversal of the low `k` bits of `i` (the permutation computed by the
first loop of `fft_radix2`). -/
def bitRev : ℕ → ℕ → ℕ
  | 0, _ => 0
  | k + 1, i => i % 2 * 2 ^ k + bitRev k (i / 2)

theorem bitRev_lt (k i : ℕ) : bitRev k i < 2 ^ k := by
  induction k generalizing i with
  | zero => simp [bitRev]
  | succ k ih =>
      have h2 : i % 2 ≤ 1 := by omega
      have := ih (i / 2)
      have hpow : 2 ^ (k + 1) = 2 * 2 ^ k := by ring
      rw [bitRev, hpow]
      nlinarith

theorem bitRev_zero (k : ℕ) : bitRev k 0 = 0 := by
  induction k with
  | zero => rfl
  | succ k ih => simp [bitRev, ih]

/-- Dual decomposition: the reversal of `i < 2^(k+1)` is twice the reversal of
its low `k` bits plus its top bit. -/
theorem bitRev_high_low (k : ℕ) : ∀ i, i < 2 ^ (k + 1) →
    bitRev (k + 1) i = 2 * bitRev k (i % 2 ^ k) + i / 2 ^ k := by
  induction k with
  | zero =>
      intro i hi
      interval_cases i <;> rfl
  | succ k ih =>
      intro i hi
      have hhalf : i / 2 < 2 ^ (k + 1) := by
        rw [Nat.div_lt_iff_lt_mul (by norm_num)]
        calc i < 2 ^ (k + 2) := hi
        _ = 2 ^ (k + 1) * 2 := by ring
      have hmod2 : i % 2 ^ (k + 1) % 2 = i % 2 := Nat.mod_mod_of_dvd i ⟨2 ^ k, by ring⟩
      have hdiv2 : i % 2 ^ (k + 1) / 2 = i / 2 % 2 ^ k := by
        rw [show (2 : ℕ) ^ (k + 1) = 2 * 2 ^ k by ring, Nat.mod_mul_right_div_self]
      have hdd : i / 2 ^ (k + 1) = i / 2 / 2 ^ k := by
        rw [Nat.div_div_eq_div_mul]
        congr 1
        ring
      rw [bitRev, ih (i / 2) hhalf, bitRev, hmod2, hdiv2, hdd]
      ring

theorem bitRev_bitRev (k : ℕ) : ∀ i, i < 2 ^ k → bitRev k (bitRev k i) = i := by
  induction k with
  | zero =>
      intro i hi
      interval_cases i
      rfl
  | succ k ih =>
      intro i hi
      have hr : bitRev k (i / 2) < 2 ^ k := bitRev_lt k (i / 2)
      have hlt : bitRev (k + 1) i < 2 ^ (k + 1) := bitRev_lt (k + 1) i
      have hRdef : bitRev (k + 1) i = i % 2 * 2 ^ k + bitRev k (i / 2) := rfl
      have hpos : 0 < 2 ^ k := Nat.pos_pow_of_pos k (by norm_num)
      rw [bitRev_high_low k (bitRev (k + 1) i) hlt, hRdef]
      have hmod : (i % 2 * 2 ^ k + bitRev k (i / 2)) % 2 ^ k = bitRev k (i / 2) := by
        rw [Nat.add_comm, Nat.add_mul_mod_self_right, Nat.mod_eq_of_lt hr]
      have hdiv : (i % 2 * 2 ^ k + bitRev k (i / 2)) / 2 ^ k = i % 2 := by
        rw [Nat.add_comm, Nat.add_mul_div_right _ _ hpos, Nat.div_eq_of_lt hr, Nat.zero_add]
      rw [hmod, hdiv, ih _ (by
        rw [Nat.div_lt_iff_lt_mul (by norm_num)]
        calc i < 2 ^ (k + 1) := hi
        _ = 2 ^ k * 2 := by ring)]
      omega

/-- The inner `while (m >= 1 && j >= m) { j -= m; m >>= 1; } j += m;` of the
bit-reversal loop: one reversed-counter increment. -/
def revStep (j m : ℕ) : ℕ :=
  if 1 ≤ m ∧ m ≤ j then revStep (j - m) (m / 2) else j + m
termination_by m
decreasing_by omega

/-- Gold–Rader increment: stepping the reversed counter of `i` yields the
reversed counter of `i + 1` (wrapping at `2^k`). -/
theorem revStep_bitRev (k : ℕ) : ∀ i, i < 2 ^ k →
    revStep (bitRev k i) (2 ^ k / 2) = bitRev k ((i + 1) % 2 ^ k) := by
  induction k with
  | zero =>
      intro i hi
      interval_cases i
      rw [revStep]
      norm_num [bitRev]
  | succ k ih =>
      intro i hi
      have hhalf : 2 ^ (k + 1) / 2 = 2 ^ k := by
        rw [pow_succ, Nat.mul_div_cancel]
        norm_num
      have hr : bitRev k (i / 2) < 2 ^ k := bitRev_lt k (i / 2)
      rcases Nat.mod_two_eq_zero_or_one i with heven | hodd
      · -- even i: the top bit of the reversed counter is 0; set it.
        have hi1 : i + 1 < 2 ^ (k + 1) := by
          rcases Nat.lt_or_ge (i + 1) (2 ^ (k + 1)) with h | h
          · exact h
          · exfalso
            have : i = 2 ^ (k + 1) - 1 := by omega
            rw [this] at heven
            have h2 : (2 ^ (k + 1) - 1) % 2 = 1 := by
              have : 2 ^ (k + 1) = 2 * 2 ^ k := by ring
              omega
            omega
        rw [bitRev, heven, hhalf, revStep]
        rw [if_neg (by omega)]
        rw [Nat.mod_eq_of_lt hi1, bitRev]
        have h1 : (i + 1) % 2 = 1 := by omega
        have h2 : (i + 1) / 2 = i / 2 := by omega
        rw [h1, h2]
        omega
      · -- odd i: clear the top bit and recurse on the remaining bits.
        rw [bitRev, hodd, hhalf, revStep]
        rw [if_pos ⟨Nat.one_le_two_pow, by omega⟩]
        have hsub : 1 * 2 ^ k + bitRev k (i / 2) - 2 ^ k = bitRev k (i / 2) := by omega
        rw [hsub]
        have hrec := ih (i / 2) (by
          rw [Nat.div_lt_iff_lt_mul (by norm_num)]
          calc i < 2 ^ (k + 1) := hi
          _ = 2 ^ k * 2 := by ring)
        rw [hrec]
        have h1 : (i + 1) % 2 = 0 := by omega
        rcases Nat.lt_or_ge (i + 1) (2 ^ (k + 1)) with hlt | hge
        · rw [Nat.mod_eq_of_lt hlt, bitRev, h1]
          have h3 : i / 2 + 1 < 2 ^ k := by
            have h4 : (i + 1) / 2 < 2 ^ k := by
              rw [Nat.div_lt_iff_lt_mul (by norm_num)]
              calc i + 1 < 2 ^ (k + 1) := hlt
              _ = 2 ^ k * 2 := by ring
            omega
          rw [Nat.mod_eq_of_lt h3]
          have h5 : (i + 1) / 2 = i / 2 + 1 := by omega
          rw [h5]
          omega
        · have hieq : i + 1 = 2 ^ (k + 1) := by omega
          have h6 : i / 2 + 1 = 2 ^ k := by
            have : 2 ^ (k + 1) = 2 * 2 ^ k := by ring
            omega
          rw [hieq, Nat.mod_self, bitRev_zero, h6, Nat.mod_self, bitRev_zero]

/-! ### The bit-reversal pass of `fft_radix2`

The in-place `Float64Array` pair `(re, im)` is modelled as a single array
`ℕ → ℂ` (the source's real/imaginary formulas are exactly complex arithmetic
on the pairs). -/

/-- Swap of two array cells (`[re[i], re[j]] = [re[j], re[i]]` and likewise for
`im`). -/
def swapIdx (A : ℕ → ℂ) (i j : ℕ) : ℕ → ℂ :=
  Function.update (Function.update A i (A j)) j (A i)

theorem swapIdx_apply (B : ℕ → ℂ) (i j p : ℕ) :
    swapIdx B i j p = if p = j then B i else if p = i then B j else B p := by
  simp [swapIdx, Function.update_apply]

/-- One iteration of the bit-reversal loop: conditional swap with the reversed
counter, then the Gold–Rader increment of the counter. -/
def bitrevStep (n : ℕ) (st : (ℕ → ℂ) × ℕ) (i : ℕ) : (ℕ → ℂ) × ℕ :=
  ⟨if i < st.2 then swapIdx st.1 i st.2 else st.1, revStep st.2 (n / 2)⟩

/-- The bit-reversal permutation pass of `fft_radix2`. -/
def bitrevPass (A : ℕ → ℂ) (n : ℕ) : ℕ → ℂ :=
  ((List.range n).foldl (bitrevStep n) ⟨A, 0⟩).1

/-- Loop invariant of the bit-reversal pass after `i` iterations: the counter
holds the reversal of `i`, and a cell is already swapped exactly when the
smaller end of its swap pair has been visited. -/
def brInv (A : ℕ → ℂ) (k i : ℕ) (st : (ℕ → ℂ) × ℕ) : Prop :=
  st.2 = bitRev k (i % 2 ^ k) ∧
  ∀ p, st.1 p =
    if min p (bitRev k p) < i ∧ p < 2 ^ k then A (bitRev k p) else A p

theorem brInv_init (A : ℕ → ℂ) (k : ℕ) : brInv A k 0 ⟨A, 0⟩ := by
  refine ⟨by simp [bitRev_zero], fun p => ?_⟩
  simp

theorem brInv_step (A : ℕ → ℂ) (k i : ℕ) (st : (ℕ → ℂ) × ℕ)
    (hinv : brInv A k i st) (hi : i < 2 ^ k) :
    brInv A k (i + 1) (bitrevStep (2 ^ k) st i) := by
  obtain ⟨hj, hB⟩ := hinv
  have himod : i % 2 ^ k = i := Nat.mod_eq_of_lt hi
  have hji : st.2 = bitRev k i := by rw [hj, himod]
  have hri : bitRev k i < 2 ^ k := bitRev_lt k i
  have hrri : bitRev k (bitRev k i) = i := bitRev_bitRev k i hi
  constructor
  · show revStep st.2 (2 ^ k / 2) = bitRev k ((i + 1) % 2 ^ k)
    rw [hji]
    exact revStep_bitRev k i hi
  · intro p
    show (if i < st.2 then swapIdx st.1 i st.2 else st.1) p = _
    by_cases hpi : p = i
    · -- p = i: after this iteration the cell holds the value from its mirror.
      rw [hpi]
      have hcond : (min i (bitRev k i) < i + 1 ∧ i < 2 ^ k) := ⟨by omega, hi⟩
      rw [if_pos hcond]
      split
      · rename_i hswap
        rw [swapIdx_apply]
        rw [if_neg (by omega), if_pos rfl, hB st.2, hji]
        rw [hji] at hswap
        rw [if_neg (by rw [hrri]; omega)]
      · rename_i hnoswap
        rw [hji] at hnoswap
        rw [hB i]
        by_cases heq : bitRev k i = i
        · rw [if_neg (by rw [heq]; omega), heq]
        · have hlt : bitRev k i < i := by omega
          rw [if_pos ⟨by omega, hi⟩]
    · by_cases hpr : p = bitRev k i
      · -- p is the mirror of i (and distinct from it).
        rw [hpr]
        have hcond : min (bitRev k i) (bitRev k (bitRev k i)) < i + 1 ∧
            bitRev k i < 2 ^ k := by
          rw [hrri]
          exact ⟨by omega, hri⟩
        rw [if_pos hcond, hrri]
        split
        · rename_i hswap
          rw [hji] at hswap
          rw [swapIdx_apply, hji, if_pos rfl, hB i]
          rw [if_neg (by omega)]
        · rename_i hnoswap
          rw [hji] at hnoswap
          have hne : bitRev k i ≠ i := fun hc => hpi (hpr.trans hc)
          have hlt : bitRev k i < i := by omega
          rw [hB (bitRev k i), if_pos ⟨by rw [hrri]; omega, hri⟩, hrri]
      · -- p untouched by this iteration.
        have hstval : (if i < st.2 then swapIdx st.1 i st.2 else st.1) p = st.1 p := by
          split
          · rw [swapIdx_apply, if_neg (by rw [hji]; exact hpr), if_neg hpi]
          · rfl
        rw [hstval, hB p]
        rcases Nat.lt_or_ge p (2 ^ k) with hplt | hpge
        · have hrvne : bitRev k p ≠ i := by
            intro hc
            exact hpr (by rw [← hc, bitRev_bitRev k p hplt])
          have hiff : (min p (bitRev k p) < i ∧ p < 2 ^ k) ↔
              (min p (bitRev k p) < i + 1 ∧ p < 2 ^ k) := by omega
          rw [if_congr hiff rfl rfl]
        · rw [if_neg (by omega), if_neg (by omega)]

theorem brInv_range (A : ℕ → ℂ) (k : ℕ) :
    ∀ i, i ≤ 2 ^ k → brInv A k i ((List.range i).foldl (bitrevStep (2 ^ k)) ⟨A, 0⟩) := by
  intro i
  induction i with
  | zero => intro _; exact brInv_init A k
  | succ i ih =>
      intro hi
      rw [List.range_succ, List.foldl_append, List.foldl_cons, List.foldl_nil]
      exact brInv_step A k i _ (ih (by omega)) (by omega)

/-- The bit-reversal pass permutes the first `2^k` cells by `bitRev k`. -/
theorem bitrevPass_spec (A : ℕ → ℂ) (k p : ℕ) (hp : p < 2 ^ k) :
    bitrevPass A (2 ^ k) p = A (bitRev k p) := by
  have h := (brInv_range A k (2 ^ k) le_rfl).2 p
  unfold bitrevPass
  rw [h]
  have hb := bitRev_lt k p
  rw [if_pos ⟨by omega, hp⟩]

/-! ### Butterfly stages of `fft_radix2` -/

/-- One butterfly: `u = A p`, `v = A q * w`; writes `u + v` at `p` and `u - v`
at `q`.  The source's explicit `(v_re, v_im)` products are the complex
product `A q * w`. -/
noncomputable def butterflyPair (A : ℕ → ℂ) (p q : ℕ) (w : ℂ) : ℕ → ℂ :=
  Function.update (Function.update A p (A p + A q * w)) q (A p - A q * w)

theorem butterflyPair_apply (A : ℕ → ℂ) (p q : ℕ) (w : ℂ) (x : ℕ) :
    butterflyPair A p q w x =
      if x = q then A p - A q * w else if x = p then A p + A q * w else A x := by
  simp [butterflyPair, Function.update_apply]

/-- One iteration of the inner `j` loop: butterfly at offsets `j`, `j + half`
of the block starting at `i`, then the twiddle recurrence `w := w * wlen`. -/
noncomputable def butterflyRound (wlen : ℂ) (i half : ℕ) (st : (ℕ → ℂ) × ℂ)
    (j : ℕ) : (ℕ → ℂ) × ℂ :=
  ⟨butterflyPair st.1 (i + j) (i + j + half) st.2, st.2 * wlen⟩

/-- The inner `j` loop over one block (`w` starts at 1). -/
noncomputable def innerLoop (wlen : ℂ) (i half : ℕ) (A : ℕ → ℂ) : ℕ → ℂ :=
  ((List.range half).foldl (butterflyRound wlen i half) ⟨A, 1⟩).1

theorem innerGo_spec (wlen : ℂ) (i half : ℕ) (A : ℕ → ℂ) :
    ∀ cnt, cnt ≤ half →
    ((List.range cnt).foldl (butterflyRound wlen i half) ⟨A, 1⟩).2 = wlen ^ cnt ∧
    ∀ p, ((List.range cnt).foldl (butterflyRound wlen i half) ⟨A, 1⟩).1 p =
      if i ≤ p ∧ p < i + cnt then A p + A (p + half) * wlen ^ (p - i)
      else if i + half ≤ p ∧ p < i + half + cnt then
        A (p - half) - A p * wlen ^ (p - half - i)
      else A p := by
  intro cnt
  induction cnt with
  | zero =>
      intro _
      refine ⟨by simp, fun p => ?_⟩
      simp only [List.range_zero, List.foldl_nil]
      rw [if_neg (by omega), if_neg (by omega)]
  | succ cnt ih =>
      intro hcnt
      obtain ⟨ihw, ihB⟩ := ih (by omega)
      have hhalfpos : 0 < half := by omega
      rw [List.range_succ, List.foldl_append, List.foldl_cons, List.foldl_nil]
      set st := (List.range cnt).foldl (butterflyRound wlen i half) ⟨A, 1⟩ with hst
      constructor
      · show (st.2 * wlen) = wlen ^ (cnt + 1)
        rw [ihw, pow_succ]
      · intro p
        show butterflyPair st.1 (i + cnt) (i + cnt + half) st.2 p = _
        have hBlo : st.1 (i + cnt) = A (i + cnt) := by
          rw [ihB (i + cnt), if_neg (by omega), if_neg (by omega)]
        have hBhi : st.1 (i + cnt + half) = A (i + cnt + half) := by
          rw [ihB (i + cnt + half), if_neg (by omega), if_neg (by omega)]
        rw [butterflyPair_apply]
        by_cases hq : p = i + cnt + half
        · rw [if_pos hq, hq, hBlo, hBhi, ihw]
          rw [if_neg (by omega), if_pos (by omega)]
          have h2 : i + cnt + half - half - i = cnt := by omega
          have h1 : i + cnt + half - half = i + cnt := by omega
          rw [h2, h1]
        · rw [if_neg hq]
          by_cases hp : p = i + cnt
          · rw [if_pos hp, hp, hBlo, hBhi, ihw]
            rw [if_pos (by omega)]
            have h1 : i + cnt - i = cnt := by omega
            rw [h1]
          · rw [if_neg hp, ihB p]
            by_cases hc1 : i ≤ p ∧ p < i + cnt
            · rw [if_pos hc1, if_pos (by omega)]
            · rw [if_neg hc1]
              by_cases hc2 : i + half ≤ p ∧ p < i + half + cnt
              · rw [if_pos hc2, if_neg (by omega), if_pos (by omega)]
              · rw [if_neg hc2, if_neg (by omega), if_neg (by omega)]

theorem innerLoop_spec (wlen : ℂ) (i half : ℕ) (A : ℕ → ℂ) (p : ℕ) :
    innerLoop wlen i half A p =
      if i ≤ p ∧ p < i + half then A p + A (p + half) * wlen ^ (p - i)
      else if i + half ≤ p ∧ p < i + half + half then
        A (p - half) - A p * wlen ^ (p - half - i)
      else A p := by
  unfold innerLoop
  exact (innerGo_spec wlen i half A half le_rfl).2 p

/-- The per-stage twiddle base: `wlen = cos(2π/len) - i sin(2π/len)`. -/
noncomputable def stageWlen (len : ℕ) : ℂ :=
  ⟨Real.cos (2 * π / len), -Real.sin (2 * π / len)⟩

/-- One butterfly stage of `fft_radix2` (`for (i = 0; i < n; i += len)`): the
inner loop on each of the `n / len` blocks in order. -/
noncomputable def stagePass (n len : ℕ) (A : ℕ → ℂ) : ℕ → ℂ :=
  ((List.range (n / len)).map (fun b => b * len)).foldl
    (fun B i => innerLoop (stageWlen len) i (len / 2) B) A

/-- The closed-form cell value after one stage, for cells inside the processed
blocks. -/
noncomputable def stageVal (wlen : ℂ) (len half : ℕ) (A : ℕ → ℂ) (p : ℕ) : ℂ :=
  if p % len < half then A p + A (p + half) * wlen ^ (p % len)
  else A (p - half) - A p * wlen ^ (p % len - half)

theorem stageGo_spec (wlen : ℂ) (len half : ℕ) (A : ℕ → ℂ)
    (hlen : len = 2 * half) (hhalf : 0 < half) :
    ∀ c p, (((List.range c).map (fun b => b * len)).foldl
        (fun B i => innerLoop wlen i half B) A) p =
      if p < c * len then stageVal wlen len half A p else A p := by
  intro c
  induction c with
  | zero =>
      intro p
      simp
  | succ c ih =>
      intro p
      rw [List.range_succ, List.map_append, List.foldl_append]
      simp only [List.map_cons, List.map_nil, List.foldl_cons, List.foldl_nil]
      rw [innerLoop_spec]
      set B := ((List.range c).map (fun b => b * len)).foldl
        (fun B i => innerLoop wlen i half B) A with hB
      have hsucc : (c + 1) * len = c * len + len := by ring
      by_cases h1 : c * len ≤ p ∧ p < c * len + half
      · have hmod : p % len = p - c * len := by
          have he : (c * len + (p - c * len)) % len = (p - c * len) % len := by
            rw [Nat.add_comm, Nat.add_mul_mod_self_right]
          have hp : c * len + (p - c * len) = p := by omega
          rw [hp] at he
          rw [he, Nat.mod_eq_of_lt (by omega)]
        have hBp : B p = A p := by
          rw [ih p, if_neg (by omega)]
        have hBph : B (p + half) = A (p + half) := by
          rw [ih (p + half), if_neg (by omega)]
        rw [if_pos h1, hBp, hBph, if_pos (by omega)]
        unfold stageVal
        rw [hmod, if_pos (by omega)]
      · rw [if_neg h1]
        by_cases h2 : c * len + half ≤ p ∧ p < c * len + half + half
        · have hmod : p % len = p - c * len := by
            have he : (c * len + (p - c * len)) % len = (p - c * len) % len := by
              rw [Nat.add_comm, Nat.add_mul_mod_self_right]
            have hp : c * len + (p - c * len) = p := by omega
            rw [hp] at he
            rw [he, Nat.mod_eq_of_lt (by omega)]
          have hBpmh : B (p - half) = A (p - half) := by
            rw [ih (p - half), if_neg (by omega)]
          have hBp : B p = A p := by
            rw [ih p, if_neg (by omega)]
          rw [if_pos h2, hBpmh, hBp, if_pos (by omega)]
          unfold stageVal
          rw [hmod, if_neg (by omega)]
          rw [show p - c * len - half = p - half - c * len by omega]
        · rw [if_neg h2, ih p]
          by_cases h3 : p < c * len
          · rw [if_pos h3, if_pos (by omega)]
          · rw [if_neg h3, if_neg (by omega)]

/-- Stage correctness in block/offset coordinates: block `b`, offsets `j` and
`j + half` hold the butterfly combination of the previous stage's cells. -/
theorem stagePass_spec (n len half : ℕ) (A : ℕ → ℂ)
    (hlen : len = 2 * half) (hhalf : 0 < half) (b j : ℕ)
    (hb : b < n / len) (hj : j < half) :
    stagePass n len A (b * len + j) =
      A (b * len + j) + A (b * len + j + half) * stageWlen len ^ j ∧
    stagePass n len A (b * len + j + half) =
      A (b * len + j) - A (b * len + j + half) * stageWlen len ^ j := by
  have hhalfdiv : len / 2 = half := by omega
  have hlo : b * len + j < n / len * len := by
    have h1 : b + 1 ≤ n / len := hb
    calc b * len + j < b * len + len := by omega
    _ = (b + 1) * len := by ring
    _ ≤ n / len * len := Nat.mul_le_mul_right len h1
  have hhi : b * len + j + half < n / len * len := by
    have h1 : b + 1 ≤ n / len := hb
    calc b * len + j + half < b * len + len := by omega
    _ = (b + 1) * len := by ring
    _ ≤ n / len * len := Nat.mul_le_mul_right len h1
  have hmodlo : (b * len + j) % len = j := by
    rw [Nat.add_comm, Nat.add_mul_mod_self_right, Nat.mod_eq_of_lt (by omega)]
  have hmodhi : (b * len + j + half) % len = j + half := by
    rw [show b * len + j + half = j + half + b * len by ring, Nat.add_mul_mod_self_right,
      Nat.mod_eq_of_lt (by omega)]
  constructor
  · unfold stagePass
    rw [hhalfdiv, stageGo_spec (stageWlen len) len half A hlen hhalf (n / len) (b * len + j),
      if_pos hlo]
    unfold stageVal
    rw [hmodlo, if_pos hj]
  · unfold stagePass
    rw [hhalfdiv, stageGo_spec (stageWlen len) len half A hlen hhalf (n / len)
      (b * len + j + half), if_pos hhi]
    unfold stageVal
    rw [hmodhi, if_neg (by omega)]
    have h1 : b * len + j + half - half = b * len + j := by omega
    have h2 : j + half - half = j := by omega
    rw [h1, h2]

/-! ### Roots of unity and the discrete Fourier transform -/

/-- The principal forward twiddle `exp(-2πi/N)`. -/
noncomputable def omegaN (N : ℕ) : ℂ :=
  Complex.exp (((-(2 * π / N) : ℝ) : ℂ) * Complex.I)

/-- The source's per-stage twiddle base `(cos(2π/len), -sin(2π/len))` is
`exp(-2πi/len)`. -/
theorem stageWlen_eq (len : ℕ) : stageWlen len = omegaN len := by
  unfold stageWlen omegaN
  rw [Complex.exp_mul_I, ← Complex.ofReal_cos, ← Complex.ofReal_sin,
    Real.cos_neg, Real.sin_neg]
  apply Complex.ext
  · show Real.cos _ = _
    simp only [Complex.add_re, Complex.ofReal_re, Complex.mul_re, Complex.I_re,
      Complex.ofReal_im, Complex.I_im, Complex.ofReal_neg, Complex.neg_re, Complex.neg_im]
    ring
  · show -Real.sin _ = _
    simp only [Complex.add_im, Complex.ofReal_im, Complex.mul_im, Complex.I_im,
      Complex.ofReal_re, Complex.I_re, Complex.ofReal_neg, Complex.neg_re, Complex.neg_im]
    ring

theorem omegaN_pow (N j : ℕ) :
    omegaN N ^ j = Complex.exp (((-(2 * π * j / N) : ℝ) : ℂ) * Complex.I) := by
  unfold omegaN
  rw [← Complex.exp_nat_mul]
  congr 1
  push_cast
  ring

theorem omegaN_sq (L : ℕ) (hL : 0 < L) : omegaN (2 * L) ^ 2 = omegaN L := by
  have hL' : (L : ℝ) ≠ 0 := Nat.cast_ne_zero.mpr hL.ne'
  have hr : -(2 * π * (2 : ℕ) / ((2 * L : ℕ) : ℝ)) = -(2 * π / L) := by
    push_cast
    field_simp
    ring
  rw [omegaN_pow, hr]
  rfl

theorem omegaN_pow_self (L : ℕ) (hL : 0 < L) : omegaN L ^ L = 1 := by
  rw [omegaN_pow]
  have hL' : (L : ℝ) ≠ 0 := Nat.cast_ne_zero.mpr hL.ne'
  have hr : -(2 * π * (L : ℕ) / ((L : ℕ) : ℝ)) = -(2 * π) := by
    field_simp
  rw [hr]
  have harg : ((-(2 * π) : ℝ) : ℂ) * Complex.I = (-1 : ℤ) * (2 * ↑π * Complex.I) := by
    push_cast
    ring
  rw [harg, Complex.exp_int_mul_two_pi_mul_I]

theorem omegaN_pow_half (L : ℕ) (hL : 0 < L) : omegaN (2 * L) ^ L = -1 := by
  rw [omegaN_pow]
  have hL' : (L : ℝ) ≠ 0 := Nat.cast_ne_zero.mpr hL.ne'
  have hr : -(2 * π * (L : ℕ) / ((2 * L : ℕ) : ℝ)) = -π := by
    push_cast
    field_simp
    ring
  rw [hr]
  have harg : ((-π : ℝ) : ℂ) * Complex.I = -(↑π * Complex.I) := by
    push_cast
    ring
  rw [harg, Complex.exp_neg, Complex.exp_pi_mul_I]
  norm_num

/-- The DFT cell `X[p] = Σ_m x[m] ω_N^{pm}` with `ω_N = exp(-2πi/N)` — what
`computeFFT`'s direct double loop accumulates. -/
noncomputable def dftCell (x : ℕ → ℂ) (N p : ℕ) : ℂ :=
  ∑ m ∈ Finset.range N, x m * omegaN N ^ (p * m)

/-- After `s` butterfly stages, block `b` of size `2^s` holds the DFT of the
input subsequence with stride `2^(k-s)` and offset `bitRev (k-s) b`. -/
noncomputable def subDft (x : ℕ → ℂ) (k s b j : ℕ) : ℂ :=
  ∑ m ∈ Finset.range (2 ^ s),
    x (m * 2 ^ (k - s) + bitRev (k - s) b) * omegaN (2 ^ s) ^ (j * m)

theorem sum_range_even_odd (N : ℕ) (f : ℕ → ℂ) :
    ∑ m ∈ Finset.range (2 * N), f m =
      (∑ m ∈ Finset.range N, f (2 * m)) + ∑ m ∈ Finset.range N, f (2 * m + 1) := by
  induction N with
  | zero => simp
  | succ N ih =>
      have h2 : 2 * (N + 1) = 2 * N + 1 + 1 := by ring
      rw [h2, Finset.sum_range_succ, Finset.sum_range_succ, Finset.sum_range_succ,
        Finset.sum_range_succ, ih]
      ring

theorem bitRev_two_mul (t b : ℕ) : bitRev (t + 1) (2 * b) = bitRev t b := by
  show (2 * b) % 2 * 2 ^ t + bitRev t (2 * b / 2) = bitRev t b
  rw [Nat.mul_mod_right, Nat.mul_div_cancel_left b (by norm_num)]
  ring

theorem bitRev_two_mul_add_one (t b : ℕ) :
    bitRev (t + 1) (2 * b + 1) = 2 ^ t + bitRev t b := by
  show (2 * b + 1) % 2 * 2 ^ t + bitRev t ((2 * b + 1) / 2) = 2 ^ t + bitRev t b
  have h1 : (2 * b + 1) % 2 = 1 := by omega
  have h2 : (2 * b + 1) / 2 = b := by omega
  rw [h1, h2]
  ring

/-- The Cooley–Tukey butterfly identity: merging the even/odd half-size
sub-DFTs with twiddle `ω^j` yields the double-size sub-DFT at `j` and
`j + 2^s`. -/
theorem subDft_split (x : ℕ → ℂ) (k s b j : ℕ) (hs : s + 1 ≤ k) (hj : j < 2 ^ s) :
    subDft x k (s + 1) b j =
      subDft x k s (2 * b) j + omegaN (2 ^ (s + 1)) ^ j * subDft x k s (2 * b + 1) j ∧
    subDft x k (s + 1) b (j + 2 ^ s) =
      subDft x k s (2 * b) j - omegaN (2 ^ (s + 1)) ^ j * subDft x k s (2 * b + 1) j := by
  have hL : 0 < 2 ^ s := Nat.pos_pow_of_pos s (by norm_num)
  have hks : k - s = (k - (s + 1)) + 1 := by omega
  have hstride : (2 : ℕ) ^ (k - s) = 2 * 2 ^ (k - (s + 1)) := by
    rw [hks, pow_succ]
    ring
  have hrevE : bitRev (k - s) (2 * b) = bitRev (k - (s + 1)) b := by
    rw [hks]
    exact bitRev_two_mul _ b
  have hrevO : bitRev (k - s) (2 * b + 1) = 2 ^ (k - (s + 1)) + bitRev (k - (s + 1)) b := by
    rw [hks]
    exact bitRev_two_mul_add_one _ b
  have homega : omegaN (2 * 2 ^ s) ^ 2 = omegaN (2 ^ s) := omegaN_sq (2 ^ s) hL
  have homegahalf : omegaN (2 * 2 ^ s) ^ (2 ^ s) = -1 := omegaN_pow_half (2 ^ s) hL
  have hωL1 : omegaN (2 ^ s) ^ (2 ^ s) = 1 := omegaN_pow_self _ hL
  have hpow21 : (2 : ℕ) ^ (s + 1) = 2 * 2 ^ s := by ring
  constructor
  · unfold subDft
    rw [hpow21, sum_range_even_odd, Finset.mul_sum, ← Finset.sum_add_distrib,
      ← Finset.sum_add_distrib]
    refine Finset.sum_congr rfl fun m _ => ?_
    rw [hstride, hrevE, hrevO]
    rw [show m * (2 * 2 ^ (k - (s + 1))) = 2 * m * 2 ^ (k - (s + 1)) by ring]
    have hoddarg : 2 * m * 2 ^ (k - (s + 1)) +
        (2 ^ (k - (s + 1)) + bitRev (k - (s + 1)) b) =
        (2 * m + 1) * 2 ^ (k - (s + 1)) + bitRev (k - (s + 1)) b := by ring
    rw [hoddarg]
    have he1 : omegaN (2 * 2 ^ s) ^ (j * (2 * m)) = omegaN (2 ^ s) ^ (j * m) := by
      rw [show j * (2 * m) = 2 * (j * m) by ring, pow_mul, homega]
    have ho1 : omegaN (2 * 2 ^ s) ^ (j * (2 * m + 1)) =
        omegaN (2 * 2 ^ s) ^ j * omegaN (2 ^ s) ^ (j * m) := by
      rw [show j * (2 * m + 1) = 2 * (j * m) + j by ring, pow_add, pow_mul, homega]
      ring
    rw [he1, ho1]
    ring
  · unfold subDft
    rw [hpow21, sum_range_even_odd, Finset.mul_sum, ← Finset.sum_sub_distrib,
      ← Finset.sum_add_distrib]
    refine Finset.sum_congr rfl fun m _ => ?_
    rw [hstride, hrevE, hrevO]
    rw [show m * (2 * 2 ^ (k - (s + 1))) = 2 * m * 2 ^ (k - (s + 1)) by ring]
    have hoddarg : 2 * m * 2 ^ (k - (s + 1)) +
        (2 ^ (k - (s + 1)) + bitRev (k - (s + 1)) b) =
        (2 * m + 1) * 2 ^ (k - (s + 1)) + bitRev (k - (s + 1)) b := by ring
    rw [hoddarg]
    have he2 : omegaN (2 * 2 ^ s) ^ ((j + 2 ^ s) * (2 * m)) = omegaN (2 ^ s) ^ (j * m) := by
      rw [show (j + 2 ^ s) * (2 * m) = 2 * (j * m + 2 ^ s * m) by ring, pow_mul, homega,
        pow_add, show omegaN (2 ^ s) ^ (2 ^ s * m) = (omegaN (2 ^ s) ^ 2 ^ s) ^ m from
          pow_mul _ _ _, hωL1, one_pow, mul_one]
    have ho2 : omegaN (2 * 2 ^ s) ^ ((j + 2 ^ s) * (2 * m + 1)) =
        -(omegaN (2 * 2 ^ s) ^ j * omegaN (2 ^ s) ^ (j * m)) := by
      rw [show (j + 2 ^ s) * (2 * m + 1) = 2 * (j * m + 2 ^ s * m) + (j + 2 ^ s) by ring,
        pow_add, pow_mul, homega, pow_add,
        show omegaN (2 ^ s) ^ (2 ^ s * m) = (omegaN (2 ^ s) ^ 2 ^ s) ^ m from pow_mul _ _ _,
        hωL1, one_pow, mul_one, pow_add, homegahalf]
      ring
    rw [he2, ho2]
    ring

/-! ### The stage cascade and `fft_radix2` -/

/-- The outer stage loop `for (len = 2; len <= n; len <<= 1)` of `fft_radix2`:
stage lengths `2, 4, …, 2^stages`. -/
noncomputable def fftStages (n stages : ℕ) (A : ℕ → ℂ) : ℕ → ℂ :=
  ((List.range stages).map (fun s => 2 ^ (s + 1))).foldl (fun B len => stagePass n len B) A

/-- `fft_radix2` on an array of length `n`: bit-reversal pass, then the
`log2 n` butterfly stages.  (The source throws on non-power-of-two lengths;
every caller in the engine passes the power of two produced by its padding
loop, and all theorems below instantiate `n = 2^k`.) -/
noncomputable def fft_radix2 (A : ℕ → ℂ) (n : ℕ) : ℕ → ℂ :=
  fftStages n n.log2 (bitrevPass A n)

theorem fftStages_spec (x : ℕ → ℂ) (k : ℕ) :
    ∀ s, s ≤ k → ∀ b j, b < 2 ^ (k - s) → j < 2 ^ s →
      fftStages (2 ^ k) s (bitrevPass x (2 ^ k)) (b * 2 ^ s + j) = subDft x k s b j := by
  intro s
  induction s with
  | zero =>
      intro _ b j hb hj
      have hj0 : j = 0 := by omega
      subst hj0
      show bitrevPass x (2 ^ k) (b * 2 ^ 0 + 0) = _
      rw [show b * 2 ^ 0 + 0 = b by ring]
      rw [bitrevPass_spec x k b (by simpa using hb)]
      unfold subDft
      rw [pow_zero, Finset.sum_range_one]
      simp
  | succ s ih =>
      intro hs b j hb hj
      have hL : 0 < 2 ^ s := Nat.pos_pow_of_pos s (by norm_num)
      have hdiv : 2 ^ k / 2 ^ (s + 1) = 2 ^ (k - (s + 1)) :=
        Nat.pow_div hs (by norm_num)
      have hstages : fftStages (2 ^ k) (s + 1) (bitrevPass x (2 ^ k)) =
          stagePass (2 ^ k) (2 ^ (s + 1)) (fftStages (2 ^ k) s (bitrevPass x (2 ^ k))) := by
        unfold fftStages
        rw [List.range_succ, List.map_append, List.foldl_append]
        simp only [List.map_cons, List.map_nil, List.foldl_cons, List.foldl_nil]
      have hlen : (2 : ℕ) ^ (s + 1) = 2 * 2 ^ s := by ring
      have hb2 : 2 * b < 2 ^ (k - s) := by
        have h1 : (2 : ℕ) ^ (k - s) = 2 * 2 ^ (k - (s + 1)) := by
          rw [show k - s = (k - (s + 1)) + 1 by omega, pow_succ]
          ring
        omega
      have hb21 : 2 * b + 1 < 2 ^ (k - s) := by
        have h1 : (2 : ℕ) ^ (k - s) = 2 * 2 ^ (k - (s + 1)) := by
          rw [show k - s = (k - (s + 1)) + 1 by omega, pow_succ]
          ring
        omega
      rw [hstages]
      set B := fftStages (2 ^ k) s (bitrevPass x (2 ^ k)) with hB
      by_cases hjlt : j < 2 ^ s
      · have hspec := stagePass_spec (2 ^ k) (2 ^ (s + 1)) (2 ^ s) B hlen hL b j
          (by rw [hdiv]; exact hb) hjlt
        rw [hspec.1]
        have hpos2 : b * 2 ^ (s + 1) + j + 2 ^ s = (2 * b + 1) * 2 ^ s + j := by
          rw [pow_succ]
          ring
        have hpos1 : b * 2 ^ (s + 1) + j = 2 * b * 2 ^ s + j := by
          rw [pow_succ]
          ring
        rw [hpos2, hpos1]
        rw [ih (by omega) (2 * b) j hb2 hjlt, ih (by omega) (2 * b + 1) j hb21 hjlt]
        rw [stageWlen_eq, (subDft_split x k s b j hs hjlt).1]
        ring
      · have hjj : j - 2 ^ s < 2 ^ s := by
          rw [hlen] at hj
          omega
        have hspec := stagePass_spec (2 ^ k) (2 ^ (s + 1)) (2 ^ s) B hlen hL b (j - 2 ^ s)
          (by rw [hdiv]; exact hb) hjj
        have hposition : b * 2 ^ (s + 1) + j = b * 2 ^ (s + 1) + (j - 2 ^ s) + 2 ^ s := by
          omega
        rw [hposition, hspec.2]
        have hpos2 : b * 2 ^ (s + 1) + (j - 2 ^ s) + 2 ^ s =
            (2 * b + 1) * 2 ^ s + (j - 2 ^ s) := by
          rw [pow_succ]
          ring
        have hpos1 : b * 2 ^ (s + 1) + (j - 2 ^ s) = 2 * b * 2 ^ s + (j - 2 ^ s) := by
          rw [pow_succ]
          ring
        rw [hpos2, hpos1]
        rw [ih (by omega) (2 * b) (j - 2 ^ s) hb2 hjj,
          ih (by omega) (2 * b + 1) (j - 2 ^ s) hb21 hjj]
        rw [stageWlen_eq]
        have hsplit2 := (subDft_split x k s b (j - 2 ^ s) hs hjj).2
        rw [show j - 2 ^ s + 2 ^ s = j by omega] at hsplit2
        rw [hsplit2]
        ring

/-- Correctness of the iterative radix-2 FFT on power-of-two lengths: cell `p`
of the output is the DFT `Σ_m x[m]·exp(-2πi·p·m/N)`. -/
theorem fft_radix2_dft (x : ℕ → ℂ) (k p : ℕ) (hp : p < 2 ^ k) :
    fft_radix2 x (2 ^ k) p = dftCell x (2 ^ k) p := by
  unfold fft_radix2
  have hlog : (2 ^ k : ℕ).log2 = k := by
    rw [Nat.log2_eq_log_two]
    exact Nat.log_pow (by norm_num) k
  rw [hlog]
  have h := fftStages_spec x k k le_rfl 0 p (by simp) hp
  rw [show 0 * 2 ^ k + p = p by ring] at h
  rw [h]
  unfold subDft dftCell
  refine Finset.sum_congr rfl fun m _ => ?_
  rw [Nat.sub_self]
  norm_num [bitRev]

/-! ### `computeFFT` and `computeModFFT` (claim C1) -/

/-- Frequency/magnitude pair lists returned by the spectrum functions. -/
structure SpectrumResult where
  frequencies : List ℝ
  magnitudes : List ℝ

/-- `computeFFT` (signal engine): zero-pad to the next power of two `N`,
direct DFT, `⌊N/2⌋` bins at `k·Fs/N`, magnitude `√(re² + im²)/N`.  `ℝ` has no
NaN, so the source's NaN-cleaning map is the identity here, and `getD _ 0`
performs the zero padding. -/
noncomputable def computeFFT (signal : List ℝ) (samplingRate : ℝ) : SpectrumResult :=
  let N := nextPow2 signal.length
  let padded : ℕ → ℝ := fun idx => signal.getD idx 0
  let halfN := N / 2
  { frequencies := (List.range halfN).map (fun (kk : ℕ) => (kk : ℝ) * samplingRate / N),
    magnitudes := (List.range halfN).map (fun (kk : ℕ) =>
      let re := ∑ m ∈ Finset.range N, padded m * Real.cos (2 * π * kk * m / N)
      let im := -∑ m ∈ Finset.range N, padded m * Real.sin (2 * π * kk * m / N)
      Real.sqrt (re * re + im * im) / N) }

/-- `computeModFFT` (modulation engine): truncate to `maxPoints` samples, pad
to the next power of two, radix-2 FFT, then one bin per iteration of
`for (k = 0; k < N / 2; k++)`.  JS `N / 2` is real division, so the loop runs
`⌈N/2⌉` times — for `N = 1` (signals of length ≤ 1) it emits one bin where
`computeFFT`'s integer `⌊N/2⌋` emits none. -/
noncomputable def computeModFFT (signal : List ℝ) (Fs : ℝ) (maxPoints : ℕ) :
    SpectrumResult :=
  let nProc := min signal.length maxPoints
  let N := nextPow2 nProc
  let A : ℕ → ℂ := fun i => if i < nProc then ((signal.getD i 0 : ℝ) : ℂ) else 0
  let Y := fft_radix2 A N
  let halfBins := (N + 1) / 2
  { frequencies := (List.range halfBins).map (fun (kk : ℕ) => (kk : ℝ) * Fs / N),
    magnitudes := (List.range halfBins).map (fun (kk : ℕ) =>
      Real.sqrt ((Y kk).re * (Y kk).re + (Y kk).im * (Y kk).im) / N) }

/-- Real and imaginary parts of a DFT cell of a real-valued input are the
cosine and (negated) sine correlation sums accumulated by `computeFFT`'s
inner loop. -/
theorem dftCell_re_im (x : ℕ → ℝ) (N kk : ℕ) :
    (dftCell (fun m => (x m : ℂ)) N kk).re =
      (∑ m ∈ Finset.range N, x m * Real.cos (2 * π * kk * m / N)) ∧
    (dftCell (fun m => (x m : ℂ)) N kk).im =
      -∑ m ∈ Finset.range N, x m * Real.sin (2 * π * kk * m / N) := by
  constructor
  · unfold dftCell
    rw [Complex.re_sum]
    refine Finset.sum_congr rfl fun m _ => ?_
    rw [omegaN_pow]
    rw [show ((-(2 * π * (kk * m : ℕ) / N) : ℝ) : ℂ) * Complex.I =
      ((-(2 * π * kk * m / N) : ℝ) : ℂ) * Complex.I by push_cast; ring_nf]
    simp only [Complex.mul_re, Complex.ofReal_re, Complex.ofReal_im,
      Complex.exp_ofReal_mul_I_re, Complex.exp_ofReal_mul_I_im, Real.cos_neg, Real.sin_neg]
    ring
  · unfold dftCell
    rw [Complex.im_sum, ← Finset.sum_neg_distrib]
    refine Finset.sum_congr rfl fun m _ => ?_
    rw [omegaN_pow]
    rw [show ((-(2 * π * (kk * m : ℕ) / N) : ℝ) : ℂ) * Complex.I =
      ((-(2 * π * kk * m / N) : ℝ) : ℂ) * Complex.I by push_cast; ring_nf]
    simp only [Complex.mul_im, Complex.ofReal_re, Complex.ofReal_im,
      Complex.exp_ofReal_mul_I_re, Complex.exp_ofReal_mul_I_im, Real.cos_neg, Real.sin_neg]
    ring

/-- Counterexample for C1 as stated: on the one-sample signal `[1]` (length
1 ≤ 2048), `computeFFT` returns empty bin lists (`⌊1/2⌋ = 0` bins) while
`computeModFFT` returns one zero-frequency bin, so the two spectrum functions
are not extensionally equal on all inputs of length ≤ 2048. -/
theorem computeFFT_modFFT_length_one_disagree :
    (computeFFT [1] 1000).frequencies = [] ∧
    (computeModFFT [1] 1000 2048).frequencies = [0] ∧
    computeFFT [1] 1000 ≠ computeModFFT [1] 1000 2048 := by
  have hfreq1 : (computeFFT [1] 1000).frequencies = [] := rfl
  have hfreq2 : (computeModFFT [1] 1000 2048).frequencies = [0] := by
    unfold computeModFFT
    dsimp only
    norm_num [nextPow2, nextPow2Go]
    rw [show List.range 1 = [0] from rfl]
    norm_num
  refine ⟨hfreq1, hfreq2, fun h => ?_⟩
  have := congrArg SpectrumResult.frequencies h
  rw [hfreq1, hfreq2] at this
  exact List.cons_ne_nil 0 [] this.symm

/-- Claim C1 (amended): for every signal of length between 2 and 2048 and
every sampling rate, the direct-DFT `computeFFT` and the radix-2-FFT-based
`computeModFFT` return the same frequency and magnitude lists — both zero-pad
to the next power of two `N`, emit `N/2` bins at `k·Fs/N`, and normalise
magnitude by `1/N`; the two implementations are the same FFT primitive on
those inputs.  (Lengths ≤ 1 are excluded: there `computeModFFT`'s `k < N/2`
loop bound, evaluated in real arithmetic, emits one bin while `computeFFT`
emits none.) -/
theorem computeFFT_eq_computeModFFT (signal : List ℝ) (Fs : ℝ)
    (hlen2 : 2 ≤ signal.length) (hlen : signal.length ≤ 2048) :
    computeFFT signal Fs = computeModFFT signal Fs 2048 := by
  obtain ⟨k, hNk⟩ := nextPow2_pow signal.length
  have hNge := nextPow2_ge signal.length
  have hmin : min signal.length 2048 = signal.length := min_eq_left hlen
  have hk1 : 1 ≤ k := by
    by_contra hc
    have hk0 : k = 0 := by omega
    rw [hk0] at hNk
    omega
  have hNeven : (nextPow2 signal.length + 1) / 2 = nextPow2 signal.length / 2 := by
    have h3 : 2 ^ (k - 1) * 2 = 2 ^ k := by
      rw [← pow_succ, Nat.sub_add_cancel hk1]
    omega
  have hA : ∀ m, (if m < signal.length then ((signal.getD m 0 : ℝ) : ℂ) else 0) =
      ((signal.getD m 0 : ℝ) : ℂ) := by
    intro m
    split
    · rfl
    · rename_i hge
      rw [List.getD_eq_default _ _ (by omega)]
      norm_num
  unfold computeFFT computeModFFT
  dsimp only
  rw [hmin, hNeven]
  congr 1
  refine List.map_congr_left fun kk hkk => ?_
  have hkklt : kk < 2 ^ k := by
    rw [List.mem_range] at hkk
    have : nextPow2 signal.length / 2 ≤ nextPow2 signal.length :=
      Nat.div_le_self _ 2
    omega
  have hfft : fft_radix2 (fun i => if i < signal.length then ((signal.getD i 0 : ℝ) : ℂ) else 0)
      (nextPow2 signal.length) kk =
      dftCell (fun m => ((signal.getD m 0 : ℝ) : ℂ)) (nextPow2 signal.length) kk := by
    rw [hNk]
    rw [fft_radix2_dft _ k kk hkklt]
    unfold dftCell
    refine Finset.sum_congr rfl fun m _ => ?_
    dsimp only
    rw [hA m]
  rw [hfft]
  rw [(dftCell_re_im (fun m => signal.getD m 0) (nextPow2 signal.length) kk).1,
    (dftCell_re_im (fun m => signal.getD m 0) (nextPow2 signal.length) kk).2]

/-- Witness for C1's amended theorem on a concrete two-sample signal. -/
theorem computeFFT_eq_computeModFFT_witness :
    2 ≤ ([1, -1] : List ℝ).length ∧ ([1, -1] : List ℝ).length ≤ 2048 ∧
    computeFFT [1, -1] 1000 = computeModFFT [1, -1] 1000 2048 :=
  ⟨by norm_num, by norm_num, computeFFT_eq_computeModFFT [1, -1] 1000 (by norm_num) (by norm_num)⟩

/-! ### `ifft_radix2`, the Hilbert spectral mask and `hilbert` (claim C9) -/

/-- `ifft_radix2`: conjugate (negate `im`), forward FFT, conjugate again and
divide by `n` (`re[i] /= n; im[i] = -im[i] / n`). -/
noncomputable def ifft_radix2 (A : ℕ → ℂ) (n : ℕ) : ℕ → ℂ :=
  fun p => (starRingEnd ℂ) (fft_radix2 (fun q => (starRingEnd ℂ) (A q)) n p) / n

/-- The Hilbert spectral mask `h` built by `hilbert`: weight 1 at DC (and at
Nyquist for even `M > 1`), 2 on positive frequencies, 0 on negative
frequencies.  (For `M ≤ 1` only `h[0] = 1` is set, and only when `M = 1` does
the cell exist.) -/
noncomputable def hilbertMask (M : ℕ) : ℕ → ℝ := fun i =>
  if M ≤ 1 then (if i = 0 ∧ M = 1 then 1 else 0)
  else if M % 2 = 0 then
    (if i = 0 then 1 else if i = M / 2 then 1 else if i < M / 2 then 2 else 0)
  else
    (if i = 0 then 1 else if i ≤ M / 2 then 2 else 0)

/-- `hilbert`: zero-pad to the next power of two, forward FFT, multiply both
components by the spectral mask, inverse FFT, return the first `N` cells as
`(re, im)` lists. -/
noncomputable def hilbert (x : List ℝ) : List ℝ × List ℝ :=
  let N := x.length
  let M := nextPow2 N
  let A : ℕ → ℂ := fun i => if i < N then ((x.getD i 0 : ℝ) : ℂ) else 0
  let F := fft_radix2 A M
  let G : ℕ → ℂ := fun i => ⟨(F i).re * hilbertMask M i, (F i).im * hilbertMask M i⟩
  let Z := ifft_radix2 G M
  ⟨(List.range N).map (fun i => (Z i).re), (List.range N).map (fun i => (Z i).im)⟩

theorem maskMul_eq (h : ℝ) (z : ℂ) : (⟨z.re * h, z.im * h⟩ : ℂ) = (h : ℂ) * z := by
  apply Complex.ext <;> simp [Complex.ofReal_re, Complex.ofReal_im, Complex.mul_re,
    Complex.mul_im] <;> ring

/-- The inverse FFT cell as a conjugate-twiddle DFT. -/
theorem ifft_dft (A : ℕ → ℂ) (k p : ℕ) (hp : p < 2 ^ k) :
    ifft_radix2 A (2 ^ k) p =
      (∑ q ∈ Finset.range (2 ^ k),
        A q * (starRingEnd ℂ) (omegaN (2 ^ k)) ^ (p * q)) / (2 ^ k : ℕ) := by
  unfold ifft_radix2
  rw [fft_radix2_dft _ k p hp]
  unfold dftCell
  rw [map_sum]
  congr 1
  refine Finset.sum_congr rfl fun q _ => ?_
  rw [map_mul, Complex.conj_conj, map_pow]

/-- Powers of the twiddle separate points of `range N`. -/
theorem omegaN_pow_inj (N : ℕ) (hN : 0 < N) (a b : ℕ) (ha : a < N) (hb : b < N)
    (h : omegaN N ^ a = omegaN N ^ b) : a = b := by
  rw [omegaN_pow, omegaN_pow] at h
  rw [Complex.exp_eq_exp_iff_exists_int] at h
  obtain ⟨t, ht⟩ := h
  have him := congrArg Complex.im ht
  simp only [Complex.mul_im, Complex.add_im, Complex.ofReal_re, Complex.ofReal_im,
    Complex.I_re, Complex.I_im, Complex.intCast_re, Complex.intCast_im, Complex.mul_re,
    Complex.re_ofNat, Complex.im_ofNat, mul_zero, mul_one, zero_mul, add_zero,
    zero_add, sub_zero] at him
  have hNr : (0 : ℝ) < N := Nat.cast_pos.mpr hN
  have hπ : (0 : ℝ) < π := Real.pi_pos
  have h2pi : (2 : ℝ) * π ≠ 0 := by positivity
  have key : (b : ℝ) - (a : ℝ) = t * N := by
    have him2 : (-(2 * π * (a : ℝ) / N)) * (N / (2 * π)) =
        (-(2 * π * (b : ℝ) / N) + t * (2 * π)) * (N / (2 * π)) := by rw [him]
    have e1 : (-(2 * π * (a : ℝ) / N)) * (N / (2 * π)) = -a := by
      field_simp
      ring
    have e2 : (-(2 * π * (b : ℝ) / N) + t * (2 * π)) * (N / (2 * π)) = -b + t * N := by
      field_simp
      ring
    rw [e1, e2] at him2
    linarith
  have ha' : (a : ℝ) < N := by exact_mod_cast ha
  have hb' : (b : ℝ) < N := by exact_mod_cast hb
  have ha0 : (0 : ℝ) ≤ a := Nat.cast_nonneg a
  have hb0 : (0 : ℝ) ≤ b := Nat.cast_nonneg b
  have htlt : (t : ℝ) < 1 := by
    have h1 : (t : ℝ) * N < 1 * N := by
      rw [one_mul]; linarith
    exact lt_of_mul_lt_mul_right h1 hNr.le
  have htgt : (-1 : ℝ) < t := by
    have h1 : (-1 : ℝ) * N < t * N := by
      rw [neg_one_mul]; linarith
    exact lt_of_mul_lt_mul_right h1 hNr.le
  have ht0 : t = 0 := by
    have h1 : t < 1 := by exact_mod_cast htlt
    have h2 : -1 < t := by exact_mod_cast htgt
    omega
  rw [ht0] at key
  have hba : (b : ℝ) = a := by push_cast at key; linarith
  exact_mod_cast hba.symm


theorem omegaN_ne_zero (N : ℕ) : omegaN N ≠ 0 := by
  unfold omegaN
  exact Complex.exp_ne_zero _

theorem omegaN_abs (N : ℕ) : Complex.abs (omegaN N) = 1 := by
  unfold omegaN
  exact Complex.abs_exp_ofReal_mul_I _

theorem omegaN_conj_eq_inv (N : ℕ) : (starRingEnd ℂ) (omegaN N) = (omegaN N)⁻¹ :=
  (Complex.inv_eq_conj (omegaN_abs N)).symm

theorem unit_conj_eq_inv (N : ℕ) (hN : 0 < N) (u : ℂ) (hu : u ^ N = 1) :
    (starRingEnd ℂ) u = u⁻¹ := by
  have habs : Complex.abs u = 1 := by
    have h1 : Complex.abs u ^ N = 1 := by
      rw [← map_pow, hu, map_one]
    rcases lt_trichotomy (Complex.abs u) 1 with h | h | h
    · exfalso
      have := pow_lt_one₀ (Complex.abs.nonneg u) h hN.ne'
      rw [h1] at this
      exact lt_irrefl 1 this
    · exact h
    · exfalso
      have := one_lt_pow₀ h hN.ne'
      rw [h1] at this
      exact lt_irrefl 1 this
  exact (Complex.inv_eq_conj habs).symm

theorem unit_pow_rev (N q : ℕ) (hq : q < N) (u : ℂ) (hu : u ^ N = 1) :
    u ^ (N - q) = (u⁻¹) ^ q := by
  rcases Nat.eq_zero_or_pos q with hq0 | hq1
  · subst hq0
    rw [Nat.sub_zero, hu, pow_zero]
  · rw [inv_pow]
    refine eq_inv_of_mul_eq_one_left ?_
    rw [← pow_add, Nat.sub_add_cancel hq.le, hu]

theorem mask_conj_sum (k : ℕ) (u : ℂ) (hu : u ^ (2 ^ k) = 1) :
    ∑ q ∈ Finset.range (2 ^ k),
        ((hilbertMask (2 ^ k) q : ℝ) : ℂ) * ((starRingEnd ℂ) u) ^ q =
      ∑ q ∈ Finset.range (2 ^ k),
        ((hilbertMask (2 ^ k) ((2 ^ k - q) % 2 ^ k) : ℝ) : ℂ) * u ^ q := by
  have hN : 0 < 2 ^ k := pow_pos (by norm_num) k
  rw [unit_conj_eq_inv (2 ^ k) hN u hu]
  refine Finset.sum_nbij' (fun q => (2 ^ k - q) % 2 ^ k) (fun q => (2 ^ k - q) % 2 ^ k)
    ?_ ?_ ?_ ?_ ?_
  · intro a ha
    exact Finset.mem_range.mpr (Nat.mod_lt _ hN)
  · intro a ha
    exact Finset.mem_range.mpr (Nat.mod_lt _ hN)
  · intro a ha
    have ha' : a < 2 ^ k := Finset.mem_range.mp ha
    dsimp only
    rcases Nat.eq_zero_or_pos a with h0 | h1
    · subst h0
      simp
    · have hin : (2 ^ k - a) % 2 ^ k = 2 ^ k - a := Nat.mod_eq_of_lt (by omega)
      rw [hin, Nat.mod_eq_of_lt (by omega)]
      omega
  · intro a ha
    have ha' : a < 2 ^ k := Finset.mem_range.mp ha
    dsimp only
    rcases Nat.eq_zero_or_pos a with h0 | h1
    · subst h0
      simp
    · have hin : (2 ^ k - a) % 2 ^ k = 2 ^ k - a := Nat.mod_eq_of_lt (by omega)
      rw [hin, Nat.mod_eq_of_lt (by omega)]
      omega
  · intro a ha
    have ha' : a < 2 ^ k := Finset.mem_range.mp ha
    dsimp only
    rcases Nat.eq_zero_or_pos a with h0 | h1
    · subst h0
      simp
    · have hin : (2 ^ k - a) % 2 ^ k = 2 ^ k - a := Nat.mod_eq_of_lt (by omega)
      rw [hin]
      have h2a : (2 ^ k - (2 ^ k - a)) % 2 ^ k = a := by
        rw [Nat.mod_eq_of_lt (by omega)]
        omega
      rw [h2a, unit_pow_rev (2 ^ k) a ha' u hu]

theorem hilbertMask_pair (k q : ℕ) (hq : q < 2 ^ k) :
    hilbertMask (2 ^ k) q + hilbertMask (2 ^ k) ((2 ^ k - q) % 2 ^ k) = 2 := by
  rcases Nat.eq_zero_or_pos k with hk0 | hk1
  · subst hk0
    have hq0 : q = 0 := by omega
    subst hq0
    norm_num [hilbertMask]
  · have h2 : 2 ≤ 2 ^ k := by
      calc 2 = 2 ^ 1 := rfl
      _ ≤ 2 ^ k := Nat.pow_le_pow_right (by norm_num) hk1
    have hev : 2 ^ k % 2 = 0 := by
      have he : 2 ^ k = 2 * 2 ^ (k - 1) := by
        rw [← pow_succ']
        congr 1
        omega
      omega
    by_cases hq0 : q = 0
    · subst hq0
      simp only [Nat.sub_zero, Nat.mod_self]
      unfold hilbertMask
      rw [if_neg (by omega), if_pos hev, if_pos rfl]
      norm_num
    · have hmod : (2 ^ k - q) % 2 ^ k = 2 ^ k - q := Nat.mod_eq_of_lt (by omega)
      rw [hmod]
      unfold hilbertMask
      split_ifs <;> first | (exfalso; omega) | norm_num

theorem sum_pow_unit (N : ℕ) (u : ℂ) (hu : u ^ N = 1) :
    ∑ q ∈ Finset.range N, u ^ q = if u = 1 then (N : ℂ) else 0 := by
  by_cases h1 : u = 1
  · simp [h1]
  · rw [if_neg h1, geom_sum_eq h1, hu, sub_self, zero_div]

theorem hilbertMask_sum (k : ℕ) (u : ℂ) (hu : u ^ (2 ^ k) = 1) :
    ∑ q ∈ Finset.range (2 ^ k),
        ((hilbertMask (2 ^ k) q : ℝ) : ℂ) * (u ^ q + ((starRingEnd ℂ) u) ^ q) =
      if u = 1 then 2 * ((2 ^ k : ℕ) : ℂ) else 0 := by
  have hN : 0 < 2 ^ k := pow_pos (by norm_num) k
  have hsplit : ∀ q ∈ Finset.range (2 ^ k),
      ((hilbertMask (2 ^ k) q : ℝ) : ℂ) * (u ^ q + ((starRingEnd ℂ) u) ^ q) =
        ((hilbertMask (2 ^ k) q : ℝ) : ℂ) * u ^ q +
          ((hilbertMask (2 ^ k) q : ℝ) : ℂ) * ((starRingEnd ℂ) u) ^ q :=
    fun q _ => mul_add _ _ _
  rw [Finset.sum_congr rfl hsplit, Finset.sum_add_distrib, mask_conj_sum k u hu,
    ← Finset.sum_add_distrib]
  have hpair : ∀ q ∈ Finset.range (2 ^ k),
      ((hilbertMask (2 ^ k) q : ℝ) : ℂ) * u ^ q +
          ((hilbertMask (2 ^ k) ((2 ^ k - q) % 2 ^ k) : ℝ) : ℂ) * u ^ q =
        2 * u ^ q := by
    intro q hqmem
    have hq : q < 2 ^ k := Finset.mem_range.mp hqmem
    rw [← add_mul, ← Complex.ofReal_add, hilbertMask_pair k q hq]
    norm_num
  rw [Finset.sum_congr rfl hpair, ← Finset.mul_sum, sum_pow_unit (2 ^ k) u hu,
    mul_ite, mul_zero]

theorem twiddle_pair1 (N q m n0 : ℕ) :
    omegaN N ^ (q * m) * ((starRingEnd ℂ) (omegaN N)) ^ (n0 * q) =
      (omegaN N ^ m * ((starRingEnd ℂ) (omegaN N)) ^ n0) ^ q := by
  rw [mul_pow]
  simp only [← pow_mul]
  rw [mul_comm q m]

theorem twiddle_pair2 (N q m n0 : ℕ) :
    ((starRingEnd ℂ) (omegaN N)) ^ (q * m) * omegaN N ^ (n0 * q) =
      ((starRingEnd ℂ) (omegaN N ^ m * ((starRingEnd ℂ) (omegaN N)) ^ n0)) ^ q := by
  rw [map_mul, map_pow, map_pow, Complex.conj_conj, mul_pow]
  simp only [← pow_mul]
  rw [mul_comm q m]

theorem maskDft_add_conj (xf : ℕ → ℝ) (k n0 : ℕ) (hn0 : n0 < 2 ^ k) :
    (∑ q ∈ Finset.range (2 ^ k),
        ((hilbertMask (2 ^ k) q : ℝ) : ℂ) * dftCell (fun m => ((xf m : ℝ) : ℂ)) (2 ^ k) q *
          ((starRingEnd ℂ) (omegaN (2 ^ k))) ^ (n0 * q)) +
      (starRingEnd ℂ) (∑ q ∈ Finset.range (2 ^ k),
        ((hilbertMask (2 ^ k) q : ℝ) : ℂ) * dftCell (fun m => ((xf m : ℝ) : ℂ)) (2 ^ k) q *
          ((starRingEnd ℂ) (omegaN (2 ^ k))) ^ (n0 * q)) =
      ((2 * (2 ^ k : ℕ) * xf n0 : ℝ) : ℂ) := by
  have hN : 0 < 2 ^ k := pow_pos (by norm_num) k
  have hωN : omegaN (2 ^ k) ^ (2 ^ k) = 1 := omegaN_pow_self _ hN
  have hωbN : ((starRingEnd ℂ) (omegaN (2 ^ k))) ^ (2 ^ k) = 1 := by
    rw [← map_pow, hωN, map_one]
  have hconj : (starRingEnd ℂ) (∑ q ∈ Finset.range (2 ^ k),
      ((hilbertMask (2 ^ k) q : ℝ) : ℂ) * dftCell (fun m => ((xf m : ℝ) : ℂ)) (2 ^ k) q *
        ((starRingEnd ℂ) (omegaN (2 ^ k))) ^ (n0 * q)) =
      ∑ q ∈ Finset.range (2 ^ k),
        ((hilbertMask (2 ^ k) q : ℝ) : ℂ) *
          (∑ m ∈ Finset.range (2 ^ k),
            ((xf m : ℝ) : ℂ) * ((starRingEnd ℂ) (omegaN (2 ^ k))) ^ (q * m)) *
          omegaN (2 ^ k) ^ (n0 * q) := by
    rw [map_sum]
    refine Finset.sum_congr rfl fun q _ => ?_
    rw [map_mul, map_mul, Complex.conj_ofReal, map_pow, Complex.conj_conj]
    congr 1
    congr 1
    unfold dftCell
    rw [map_sum]
    refine Finset.sum_congr rfl fun m _ => ?_
    rw [map_mul, map_pow, Complex.conj_ofReal]
  rw [hconj]
  have hfirst : (∑ q ∈ Finset.range (2 ^ k),
      ((hilbertMask (2 ^ k) q : ℝ) : ℂ) * dftCell (fun m => ((xf m : ℝ) : ℂ)) (2 ^ k) q *
        ((starRingEnd ℂ) (omegaN (2 ^ k))) ^ (n0 * q)) =
      ∑ q ∈ Finset.range (2 ^ k),
        ((hilbertMask (2 ^ k) q : ℝ) : ℂ) *
          (∑ m ∈ Finset.range (2 ^ k), ((xf m : ℝ) : ℂ) * omegaN (2 ^ k) ^ (q * m)) *
          ((starRingEnd ℂ) (omegaN (2 ^ k))) ^ (n0 * q) := by
    refine Finset.sum_congr rfl fun q _ => ?_
    rfl
  rw [hfirst, ← Finset.sum_add_distrib]
  have hstep : ∀ q ∈ Finset.range (2 ^ k),
      (((hilbertMask (2 ^ k) q : ℝ) : ℂ) *
          (∑ m ∈ Finset.range (2 ^ k), ((xf m : ℝ) : ℂ) * omegaN (2 ^ k) ^ (q * m)) *
          ((starRingEnd ℂ) (omegaN (2 ^ k))) ^ (n0 * q) +
        ((hilbertMask (2 ^ k) q : ℝ) : ℂ) *
          (∑ m ∈ Finset.range (2 ^ k),
            ((xf m : ℝ) : ℂ) * ((starRingEnd ℂ) (omegaN (2 ^ k))) ^ (q * m)) *
          omegaN (2 ^ k) ^ (n0 * q)) =
      ∑ m ∈ Finset.range (2 ^ k), ((xf m : ℝ) : ℂ) *
        (((hilbertMask (2 ^ k) q : ℝ) : ℂ) *
          ((omegaN (2 ^ k) ^ m * ((starRingEnd ℂ) (omegaN (2 ^ k))) ^ n0) ^ q +
            ((starRingEnd ℂ)
              (omegaN (2 ^ k) ^ m * ((starRingEnd ℂ) (omegaN (2 ^ k))) ^ n0)) ^ q)) := by
    intro q _
    rw [Finset.mul_sum, Finset.sum_mul, Finset.mul_sum, Finset.sum_mul,
      ← Finset.sum_add_distrib]
    refine Finset.sum_congr rfl fun m _ => ?_
    rw [← twiddle_pair1 (2 ^ k) q m n0, ← twiddle_pair2 (2 ^ k) q m n0]
    ring
  rw [Finset.sum_congr rfl hstep, Finset.sum_comm]
  have hfac : ∀ m ∈ Finset.range (2 ^ k),
      (∑ q ∈ Finset.range (2 ^ k), ((xf m : ℝ) : ℂ) *
        (((hilbertMask (2 ^ k) q : ℝ) : ℂ) *
          ((omegaN (2 ^ k) ^ m * ((starRingEnd ℂ) (omegaN (2 ^ k))) ^ n0) ^ q +
            ((starRingEnd ℂ)
              (omegaN (2 ^ k) ^ m * ((starRingEnd ℂ) (omegaN (2 ^ k))) ^ n0)) ^ q))) =
      ((xf m : ℝ) : ℂ) *
        (if omegaN (2 ^ k) ^ m * ((starRingEnd ℂ) (omegaN (2 ^ k))) ^ n0 = 1 then
          2 * ((2 ^ k : ℕ) : ℂ) else 0) := by
    intro m _
    rw [← Finset.mul_sum]
    congr 1
    have hu : (omegaN (2 ^ k) ^ m * ((starRingEnd ℂ) (omegaN (2 ^ k))) ^ n0) ^ (2 ^ k) = 1 := by
      rw [mul_pow, ← pow_mul, mul_comm m (2 ^ k), pow_mul, hωN, one_pow,
        ← pow_mul, mul_comm n0 (2 ^ k), pow_mul, hωbN, one_pow, one_mul]
    exact hilbertMask_sum k _ hu
  rw [Finset.sum_congr rfl hfac]
  refine (Finset.sum_eq_single_of_mem n0 (Finset.mem_range.mpr hn0) ?_).trans ?_
  · intro b hb hbne
    rw [if_neg, mul_zero]
    intro h1
    rw [omegaN_conj_eq_inv, inv_pow,
      mul_inv_eq_one₀ (pow_ne_zero _ (omegaN_ne_zero _))] at h1
    exact hbne (omegaN_pow_inj (2 ^ k) hN b n0 (Finset.mem_range.mp hb) hn0 h1)
  · rw [if_pos]
    · push_cast
      ring
    · rw [omegaN_conj_eq_inv, inv_pow]
      exact mul_inv_cancel₀ (pow_ne_zero _ (omegaN_ne_zero _))

theorem cell_re (xf : ℕ → ℝ) (F : ℕ → ℂ) (k n0 : ℕ) (hn0 : n0 < 2 ^ k)
    (hF : ∀ q, q < 2 ^ k → F q = dftCell (fun m => ((xf m : ℝ) : ℂ)) (2 ^ k) q) :
    ((∑ q ∈ Finset.range (2 ^ k),
        ((hilbertMask (2 ^ k) q : ℝ) : ℂ) * F q *
          ((starRingEnd ℂ) (omegaN (2 ^ k))) ^ (n0 * q)) / ((2 ^ k : ℕ) : ℂ)).re = xf n0 := by
  have hsum : (∑ q ∈ Finset.range (2 ^ k),
      ((hilbertMask (2 ^ k) q : ℝ) : ℂ) * F q *
        ((starRingEnd ℂ) (omegaN (2 ^ k))) ^ (n0 * q)) =
      ∑ q ∈ Finset.range (2 ^ k),
        ((hilbertMask (2 ^ k) q : ℝ) : ℂ) * dftCell (fun m => ((xf m : ℝ) : ℂ)) (2 ^ k) q *
          ((starRingEnd ℂ) (omegaN (2 ^ k))) ^ (n0 * q) :=
    Finset.sum_congr rfl fun q hq => by rw [hF q (Finset.mem_range.mp hq)]
  rw [hsum]
  have hadd := maskDft_add_conj xf k n0 hn0
  rw [Complex.add_conj] at hadd
  have hre : (∑ q ∈ Finset.range (2 ^ k),
      ((hilbertMask (2 ^ k) q : ℝ) : ℂ) * dftCell (fun m => ((xf m : ℝ) : ℂ)) (2 ^ k) q *
        ((starRingEnd ℂ) (omegaN (2 ^ k))) ^ (n0 * q)).re = ((2 ^ k : ℕ) : ℝ) * xf n0 := by
    have h3 := Complex.ofReal_inj.mp hadd
    linarith
  have hne : (((2 ^ k : ℕ) : ℝ)) ≠ 0 := by
    push_cast
    positivity
  rw [← Complex.ofReal_natCast, Complex.div_ofReal_re, hre]
  exact mul_div_cancel_left₀ _ hne

theorem hilbert_cell_re (xf : ℕ → ℝ) (F : ℕ → ℂ) (k n0 : ℕ) (hn0 : n0 < 2 ^ k)
    (hF : ∀ q, q < 2 ^ k → F q = dftCell (fun m => ((xf m : ℝ) : ℂ)) (2 ^ k) q) :
    (ifft_radix2 (fun i => ((hilbertMask (2 ^ k) i : ℝ) : ℂ) * F i) (2 ^ k) n0).re =
      xf n0 := by
  rw [ifft_dft _ k n0 hn0]
  exact cell_re xf F k n0 hn0 hF

/-- C9: for every real input whose length is an exact power of two, `hilbert`
returns a real part equal to the input sequence (in exact arithmetic): the
forward radix-2 FFT, multiplication by the Hilbert spectral mask (1 at DC and
Nyquist, 2 on positive frequencies, 0 on negative frequencies) and the inverse
FFT leave the real part of the analytic signal identical to the original
samples. -/
theorem hilbert_real_part_id (x : List ℝ) (k : ℕ) (hx : x.length = 2 ^ k) :
    (hilbert x).1 = x := by
  unfold hilbert
  dsimp only
  rw [hx, nextPow2_pow_self k]
  have hGmask : (fun i =>
      (⟨(fft_radix2 (fun j => if j < 2 ^ k then ((x.getD j 0 : ℝ) : ℂ) else 0)
            (2 ^ k) i).re * hilbertMask (2 ^ k) i,
        (fft_radix2 (fun j => if j < 2 ^ k then ((x.getD j 0 : ℝ) : ℂ) else 0)
            (2 ^ k) i).im * hilbertMask (2 ^ k) i⟩ : ℂ)) =
      fun i => ((hilbertMask (2 ^ k) i : ℝ) : ℂ) *
        fft_radix2 (fun j => if j < 2 ^ k then ((x.getD j 0 : ℝ) : ℂ) else 0)
          (2 ^ k) i :=
    funext fun i => maskMul_eq _ _
  rw [hGmask]
  refine List.ext_getElem ?_ ?_
  · simp [hx]
  · intro n h1 h2
    simp only [List.getElem_map, List.getElem_range]
    have hn : n < 2 ^ k := by
      simpa using h1
    have hF : ∀ q, q < 2 ^ k →
        fft_radix2 (fun j => if j < 2 ^ k then ((x.getD j 0 : ℝ) : ℂ) else 0)
            (2 ^ k) q =
          dftCell (fun m => ((x.getD m 0 : ℝ) : ℂ)) (2 ^ k) q := by
      intro q hq
      rw [fft_radix2_dft _ k q hq]
      unfold dftCell
      refine Finset.sum_congr rfl fun m hm => ?_
      dsimp only
      rw [if_pos (Finset.mem_range.mp hm)]
    rw [hilbert_cell_re (fun i => x.getD i 0) _ k n hn hF]
    exact List.getD_eq_getElem x 0 h2

/-- Witness for C9: the identity holds at the concrete input `[1, 2]`, whose
length is `2 ^ 1`. -/
theorem hilbert_real_part_id_witness :
    ([1, 2] : List ℝ).length = 2 ^ 1 ∧ (hilbert [1, 2]).1 = [1, 2] :=
  ⟨rfl, hilbert_real_part_id [1, 2] 1 rfl⟩

/-! ### `envelopeDetect`, `demodulateASK` and the ASK round trip (claim C4) -/

/-- Value of `sin(pi r / 25)` — the modulated all-ones carrier at sample
residue `r`. -/
noncomputable def sinv (r : ℕ) : ℝ := Real.sin (π * r / 25)

theorem sin_poly_lb (x a b : ℝ) (hax : a ≤ x) (hxb : x ≤ b) (h0 : 0 ≤ a) (hb1 : b ≤ 1) :
    a - b ^ 3 / 6 - 5 / 96 * b ^ 4 ≤ Real.sin x := by
  have hx0 : 0 ≤ x := le_trans h0 hax
  have hxabs : |x| ≤ 1 := by
    rw [abs_of_nonneg hx0]
    linarith
  have hs := Real.sin_bound hxabs
  rw [abs_of_nonneg hx0, abs_le] at hs
  have h3 : x ^ 3 ≤ b ^ 3 := pow_le_pow_left₀ hx0 hxb 3
  have h4 : x ^ 4 ≤ b ^ 4 := pow_le_pow_left₀ hx0 hxb 4
  linarith [hs.1, hax, h3, h4]

theorem cos_poly_lb (y m : ℝ) (hm : |y| ≤ m) (hm1 : m ≤ 1) :
    1 - m ^ 2 / 2 - 5 / 96 * m ^ 4 ≤ Real.cos y := by
  have hy1 : |y| ≤ 1 := le_trans hm hm1
  have hc := Real.cos_bound hy1
  rw [abs_le] at hc
  have habs0 : 0 ≤ |y| := abs_nonneg y
  have h2 : y ^ 2 ≤ m ^ 2 := by
    have h := pow_le_pow_left₀ habs0 hm 2
    rwa [sq_abs] at h
  have hy4 : |y| ^ 4 = y ^ 4 := by
    rw [← abs_pow]
    exact abs_of_nonneg (by positivity)
  have h4 : y ^ 4 ≤ m ^ 4 := by
    have h := pow_le_pow_left₀ habs0 hm 4
    rwa [hy4] at h
  rw [hy4] at hc
  linarith [hc.1, h2, h4]

theorem sinv0_eq : sinv 0 = 0 := by
  unfold sinv
  norm_num

theorem sinv1_lb : (0.12531 : ℝ) < sinv 1 := by
  have hπl := Real.pi_gt_d6
  have hπu := Real.pi_lt_d6
  unfold sinv
  push_cast
  calc (0.12531 : ℝ) < 0.1256636 - 0.1256638 ^ 3 / 6 - 5 / 96 * 0.1256638 ^ 4 := by
        norm_num
  _ ≤ Real.sin (π * 1 / 25) :=
      sin_poly_lb _ _ _ (by linarith) (by linarith) (by norm_num) (by norm_num)

theorem sinv2_lb : (0.24847 : ℝ) < sinv 2 := by
  have hπl := Real.pi_gt_d6
  have hπu := Real.pi_lt_d6
  unfold sinv
  push_cast
  calc (0.24847 : ℝ) < 0.2513273 - 0.2513275 ^ 3 / 6 - 5 / 96 * 0.2513275 ^ 4 := by
        norm_num
  _ ≤ Real.sin (π * 2 / 25) :=
      sin_poly_lb _ _ _ (by linarith) (by linarith) (by norm_num) (by norm_num)

theorem sinv3_lb : (0.367 : ℝ) < sinv 3 := by
  have hπl := Real.pi_gt_d6
  have hπu := Real.pi_lt_d6
  unfold sinv
  push_cast
  calc (0.367 : ℝ) < 0.376991 - 0.3769912 ^ 3 / 6 - 5 / 96 * 0.3769912 ^ 4 := by
        norm_num
  _ ≤ Real.sin (π * 3 / 25) :=
      sin_poly_lb _ _ _ (by linarith) (by linarith) (by norm_num) (by norm_num)

theorem sinv4_lb : (0.47816 : ℝ) < sinv 4 := by
  have hπl := Real.pi_gt_d6
  have hπu := Real.pi_lt_d6
  unfold sinv
  push_cast
  calc (0.47816 : ℝ) < 0.5026547 - 0.5026549 ^ 3 / 6 - 5 / 96 * 0.5026549 ^ 4 := by
        norm_num
  _ ≤ Real.sin (π * 4 / 25) :=
      sin_poly_lb _ _ _ (by linarith) (by linarith) (by norm_num) (by norm_num)

theorem sinv5_lb : (0.58619 : ℝ) < sinv 5 := by
  have hπl := Real.pi_gt_d6
  have hπu := Real.pi_lt_d6
  unfold sinv
  have hhalf : π * ((5 : ℕ) : ℝ) / 25 = 2 * (π / 10) := by
    push_cast
    ring
  rw [hhalf, Real.sin_two_mul]
  have hs : (0.30848 : ℝ) ≤ Real.sin (π / 10) := by
    calc (0.30848 : ℝ) ≤ 0.3141592 - 0.3141593 ^ 3 / 6 - 5 / 96 * 0.3141593 ^ 4 := by
          norm_num
    _ ≤ Real.sin (π / 10) :=
        sin_poly_lb _ _ _ (by linarith) (by linarith) (by norm_num) (by norm_num)
  have hc : (0.95014 : ℝ) ≤ Real.cos (π / 10) := by
    calc (0.95014 : ℝ) ≤ 1 - 0.3141593 ^ 2 / 2 - 5 / 96 * 0.3141593 ^ 4 := by
          norm_num
    _ ≤ Real.cos (π / 10) :=
        cos_poly_lb _ _ (by rw [abs_of_nonneg (by positivity)]; linarith) (by norm_num)
  nlinarith [hs, hc]

theorem sinv6_lb : (0.66571 : ℝ) < sinv 6 := by
  have hπl := Real.pi_gt_d6
  have hπu := Real.pi_lt_d6
  unfold sinv
  push_cast
  calc (0.66571 : ℝ) < 0.753982 - 0.7539824 ^ 3 / 6 - 5 / 96 * 0.7539824 ^ 4 := by
        norm_num
  _ ≤ Real.sin (π * 6 / 25) :=
      sin_poly_lb _ _ _ (by linarith) (by linarith) (by norm_num) (by norm_num)

theorem sinv7_lb : (0.735 : ℝ) < sinv 7 := by
  have hπl := Real.pi_gt_d6
  have hπu := Real.pi_lt_d6
  unfold sinv
  push_cast
  calc (0.735 : ℝ) < 0.8796457 - 0.8796461 ^ 3 / 6 - 5 / 96 * 0.8796461 ^ 4 := by
        norm_num
  _ ≤ Real.sin (π * 7 / 25) :=
      sin_poly_lb _ _ _ (by linarith) (by linarith) (by norm_num) (by norm_num)

theorem sinv_cos_form (r : ℕ) : sinv r = Real.cos (π * r / 25 - π / 2) := by
  unfold sinv
  rw [Real.cos_sub_pi_div_two]

theorem sinv8_lb : (0.83478 : ℝ) < sinv 8 := by
  have hπl := Real.pi_gt_d6
  have hπu := Real.pi_lt_d6
  rw [sinv_cos_form]
  push_cast
  have habs : |π * 8 / 25 - π / 2| ≤ 0.5654868 := by
    rw [abs_le]
    constructor <;> nlinarith
  calc (0.83478 : ℝ) < 1 - 0.5654868 ^ 2 / 2 - 5 / 96 * 0.5654868 ^ 4 := by
        norm_num
  _ ≤ Real.cos (π * 8 / 25 - π / 2) := cos_poly_lb _ _ habs (by norm_num)

theorem sinv9_lb : (0.90132 : ℝ) < sinv 9 := by
  have hπl := Real.pi_gt_d6
  have hπu := Real.pi_lt_d6
  rw [sinv_cos_form]
  push_cast
  have habs : |π * 9 / 25 - π / 2| ≤ 0.4398231 := by
    rw [abs_le]
    constructor <;> nlinarith
  calc (0.90132 : ℝ) < 1 - 0.4398231 ^ 2 / 2 - 5 / 96 * 0.4398231 ^ 4 := by
        norm_num
  _ ≤ Real.cos (π * 9 / 25 - π / 2) := cos_poly_lb _ _ habs (by norm_num)

theorem sinv10_lb : (0.95014 : ℝ) < sinv 10 := by
  have hπl := Real.pi_gt_d6
  have hπu := Real.pi_lt_d6
  rw [sinv_cos_form]
  push_cast
  have habs : |π * 10 / 25 - π / 2| ≤ 0.3141593 := by
    rw [abs_le]
    constructor <;> nlinarith
  calc (0.95014 : ℝ) < 1 - 0.3141593 ^ 2 / 2 - 5 / 96 * 0.3141593 ^ 4 := by
        norm_num
  _ ≤ Real.cos (π * 10 / 25 - π / 2) := cos_poly_lb _ _ habs (by norm_num)

theorem sinv11_lb : (0.98216 : ℝ) < sinv 11 := by
  have hπl := Real.pi_gt_d6
  have hπu := Real.pi_lt_d6
  rw [sinv_cos_form]
  push_cast
  have habs : |π * 11 / 25 - π / 2| ≤ 0.1884956 := by
    rw [abs_le]
    constructor <;> nlinarith
  calc (0.98216 : ℝ) < 1 - 0.1884956 ^ 2 / 2 - 5 / 96 * 0.1884956 ^ 4 := by
        norm_num
  _ ≤ Real.cos (π * 11 / 25 - π / 2) := cos_poly_lb _ _ habs (by norm_num)

theorem sinv12_lb : (0.99802 : ℝ) < sinv 12 := by
  have hπl := Real.pi_gt_d6
  have hπu := Real.pi_lt_d6
  rw [sinv_cos_form]
  push_cast
  have habs : |π * 12 / 25 - π / 2| ≤ 0.0628319 := by
    rw [abs_le]
    constructor <;> nlinarith
  calc (0.99802 : ℝ) < 1 - 0.0628319 ^ 2 / 2 - 5 / 96 * 0.0628319 ^ 4 := by
        norm_num
  _ ≤ Real.cos (π * 12 / 25 - π / 2) := cos_poly_lb _ _ habs (by norm_num)

theorem sinv_mirror (r : ℕ) (hr : r ≤ 25) : sinv (25 - r) = sinv r := by
  unfold sinv
  have hc : ((25 - r : ℕ) : ℝ) = 25 - (r : ℝ) := by
    push_cast [hr]
    ring
  rw [hc, show π * (25 - (r : ℝ)) / 25 = π - π * r / 25 from by ring, Real.sin_pi_sub]

theorem sinv13_lb : (0.99802 : ℝ) < sinv 13 := by
  have h := sinv_mirror 12 (by norm_num)
  norm_num at h
  rw [h]
  exact sinv12_lb

theorem sinv14_lb : (0.98216 : ℝ) < sinv 14 := by
  have h := sinv_mirror 11 (by norm_num)
  norm_num at h
  rw [h]
  exact sinv11_lb

theorem sinv15_lb : (0.95014 : ℝ) < sinv 15 := by
  have h := sinv_mirror 10 (by norm_num)
  norm_num at h
  rw [h]
  exact sinv10_lb

theorem sinv16_lb : (0.90132 : ℝ) < sinv 16 := by
  have h := sinv_mirror 9 (by norm_num)
  norm_num at h
  rw [h]
  exact sinv9_lb

theorem sinv17_lb : (0.83478 : ℝ) < sinv 17 := by
  have h := sinv_mirror 8 (by norm_num)
  norm_num at h
  rw [h]
  exact sinv8_lb

theorem sinv18_lb : (0.735 : ℝ) < sinv 18 := by
  have h := sinv_mirror 7 (by norm_num)
  norm_num at h
  rw [h]
  exact sinv7_lb

theorem sinv19_lb : (0.66571 : ℝ) < sinv 19 := by
  have h := sinv_mirror 6 (by norm_num)
  norm_num at h
  rw [h]
  exact sinv6_lb

theorem sinv20_lb : (0.58619 : ℝ) < sinv 20 := by
  have h := sinv_mirror 5 (by norm_num)
  norm_num at h
  rw [h]
  exact sinv5_lb

theorem sinv21_lb : (0.47816 : ℝ) < sinv 21 := by
  have h := sinv_mirror 4 (by norm_num)
  norm_num at h
  rw [h]
  exact sinv4_lb

theorem sinv22_lb : (0.367 : ℝ) < sinv 22 := by
  have h := sinv_mirror 3 (by norm_num)
  norm_num at h
  rw [h]
  exact sinv3_lb

theorem sinv23_lb : (0.24847 : ℝ) < sinv 23 := by
  have h := sinv_mirror 2 (by norm_num)
  norm_num at h
  rw [h]
  exact sinv2_lb

theorem sinv24_lb : (0.12531 : ℝ) < sinv 24 := by
  have h := sinv_mirror 1 (by norm_num)
  norm_num at h
  rw [h]
  exact sinv1_lb

theorem sinv1_ub : sinv 1 < (0.1257 : ℝ) := by
  have hπu := Real.pi_lt_d6
  unfold sinv
  push_cast
  have h := Real.sin_lt (show (0 : ℝ) < π * 1 / 25 by positivity)
  linarith

theorem sinv2_ub : sinv 2 < (0.2514 : ℝ) := by
  have hπu := Real.pi_lt_d6
  unfold sinv
  push_cast
  have h := Real.sin_lt (show (0 : ℝ) < π * 2 / 25 by positivity)
  linarith

theorem sinv3_ub : sinv 3 < (0.3771 : ℝ) := by
  have hπu := Real.pi_lt_d6
  unfold sinv
  push_cast
  have h := Real.sin_lt (show (0 : ℝ) < π * 3 / 25 by positivity)
  linarith

theorem sinv4_ub : sinv 4 < (0.5028 : ℝ) := by
  have hπu := Real.pi_lt_d6
  unfold sinv
  push_cast
  have h := Real.sin_lt (show (0 : ℝ) < π * 4 / 25 by positivity)
  linarith

noncomputable def winSum (a : ℕ) : ℝ := ∑ d ∈ Finset.range 10, sinv ((a + d) % 25)

set_option maxHeartbeats 3200000 in
theorem winSum_gt (a : ℕ) (ha : a < 25) : 3 < winSum a := by
  interval_cases a <;>
    (unfold winSum
     simp only [Finset.sum_range_succ, Finset.sum_range_zero]
     norm_num
     linarith [sinv0_eq, sinv1_lb, sinv2_lb, sinv3_lb, sinv4_lb, sinv5_lb, sinv6_lb,
       sinv7_lb, sinv8_lb, sinv9_lb, sinv10_lb, sinv11_lb, sinv12_lb, sinv13_lb,
       sinv14_lb, sinv15_lb, sinv16_lb, sinv17_lb, sinv18_lb, sinv19_lb, sinv20_lb,
       sinv21_lb, sinv22_lb, sinv23_lb, sinv24_lb])


/-- The loop body of `envelopeDetect`'s moving-average pass: add `abs[i]` to the
running sum, drop `abs[i - 10]` once `i >= 10`, emit `currentSum / min(i+1, 10)`. -/
noncomputable def envStep (signal : List ℝ) (st : ℝ × List ℝ) (i : ℕ) : ℝ × List ℝ :=
  let c1 := st.1 + |signal.getD i 0|
  let c2 := if 10 ≤ i then c1 - |signal.getD (i - 10) 0| else c1
  (c2, st.2 ++ [c2 / ((min (i + 1) 10 : ℕ) : ℝ)])

/-- `envelopeDetect`: rectification followed by a 10-sample moving average,
maintained incrementally by `envStep`. -/
noncomputable def envelopeDetect (signal : List ℝ) : List ℝ :=
  ((List.range signal.length).foldl (envStep signal) (0, [])).2

/-- `demodulateASK`: threshold the detected envelope (default threshold 0.3). -/
noncomputable def demodulateASK (signal : List ℝ) (threshold : ℝ) : List ℕ :=
  (envelopeDetect signal).map (fun v => if v > threshold then 1 else 0)

/-- Closed form of the envelope cell `i`: the mean of the last `min(i+1, 10)`
rectified samples. -/
noncomputable def envCell (signal : List ℝ) (i : ℕ) : ℝ :=
  (∑ j ∈ Finset.Ico (i + 1 - min (i + 1) 10) (i + 1), |signal.getD j 0|) /
    ((min (i + 1) 10 : ℕ) : ℝ)

theorem window_step (a : ℕ → ℝ) (n : ℕ) :
    (if 10 ≤ n
      then (∑ j ∈ Finset.Ico (n - min n 10) n, a j) + a n - a (n - 10)
      else (∑ j ∈ Finset.Ico (n - min n 10) n, a j) + a n) =
      ∑ j ∈ Finset.Ico (n + 1 - min (n + 1) 10) (n + 1), a j := by
  by_cases h : 10 ≤ n
  · rw [if_pos h]
    rw [show n - min n 10 = n - 10 from by omega,
      show n + 1 - min (n + 1) 10 = n - 9 from by omega]
    have e1 : ∑ j ∈ Finset.Ico (n - 10) (n + 1), a j
        = (∑ j ∈ Finset.Ico (n - 10) n, a j) + a n :=
      Finset.sum_Ico_succ_top (by omega) a
    have e2 : ∑ j ∈ Finset.Ico (n - 10) (n + 1), a j
        = a (n - 10) + ∑ j ∈ Finset.Ico (n - 10 + 1) (n + 1), a j :=
      Finset.sum_eq_sum_Ico_succ_bot (by omega) a
    rw [show n - 10 + 1 = n - 9 from by omega] at e2
    linarith
  · rw [if_neg h]
    rw [show n - min n 10 = 0 from by omega,
      show n + 1 - min (n + 1) 10 = 0 from by omega]
    exact (Finset.sum_Ico_succ_top (by omega) a).symm

theorem envelope_fold (signal : List ℝ) (n : ℕ) :
    (List.range n).foldl (envStep signal) (0, []) =
      (∑ j ∈ Finset.Ico (n - min n 10) n, |signal.getD j 0|,
        (List.range n).map (envCell signal)) := by
  induction n with
  | zero =>
      simp
  | succ n ih =>
      rw [List.range_succ, List.foldl_append, ih, List.foldl_cons, List.foldl_nil]
      unfold envStep
      dsimp only
      refine Prod.ext ?_ ?_
      · exact window_step (fun j => |signal.getD j 0|) n
      · dsimp only
        rw [List.map_append]
        dsimp only [List.map_cons, List.map_nil]
        congr 2
        unfold envCell
        rw [← window_step (fun j => |signal.getD j 0|) n]

theorem envelopeDetect_eq (signal : List ℝ) :
    envelopeDetect signal = (List.range signal.length).map (envCell signal) := by
  unfold envelopeDetect
  rw [envelope_fold]

theorem demodulateASK_getD (signal : List ℝ) (th : ℝ) (i : ℕ) (hi : i < signal.length) :
    (demodulateASK signal th).getD i 0 = if envCell signal i > th then 1 else 0 := by
  unfold demodulateASK
  rw [envelopeDetect_eq, List.map_map]
  rw [List.getD_eq_getElem _ _ (by simpa using hi), List.getElem_map, List.getElem_range]
  rfl

theorem abs_sin_pimod (j : ℕ) : |Real.sin (π * j / 25)| = sinv (j % 25) := by
  unfold sinv
  have hd : (j : ℝ) = 25 * ((j / 25 : ℕ) : ℝ) + ((j % 25 : ℕ) : ℝ) := by
    exact_mod_cast (Nat.div_add_mod j 25).symm
  have harg : π * (j : ℝ) / 25 = π * ((j % 25 : ℕ) : ℝ) / 25 + ((j / 25 : ℕ) : ℝ) * π := by
    rw [hd]
    ring
  rw [harg, Real.sin_add_nat_mul_pi, abs_mul, abs_pow, abs_neg, abs_one, one_pow,
    one_mul]
  refine abs_of_nonneg (Real.sin_nonneg_of_nonneg_of_le_pi ?_ ?_)
  · positivity
  · have hr : ((j % 25 : ℕ) : ℝ) ≤ 24 := by
      have h25 : j % 25 < 25 := Nat.mod_lt _ (by norm_num)
      exact_mod_cast Nat.le_of_lt_succ h25
    nlinarith [Real.pi_pos]

theorem sum_Ico_mod_eq (m : ℕ) :
    ∑ j ∈ Finset.Ico m (m + 10), sinv (j % 25) = winSum (m % 25) := by
  rw [Finset.sum_Ico_eq_sum_range]
  unfold winSum
  rw [show m + 10 - m = 10 from by omega]
  refine Finset.sum_congr rfl fun d _ => ?_
  rw [Nat.mod_add_mod]

theorem getBit_all_ones {bits : List ℕ} (hones : ∀ b ∈ bits, b = 1)
    (hne : bits ≠ []) (idx : ℤ) : getBit bits idx = 1 := by
  unfold getBit
  have hlen : 0 < bits.length := List.length_pos.mpr hne
  rw [if_neg (by omega)]
  have h1 : 0 ≤ idx % (bits.length : ℤ) :=
    Int.emod_nonneg idx (by exact_mod_cast hlen.ne')
  have h2 : idx % (bits.length : ℤ) < bits.length :=
    Int.emod_lt_of_pos idx (by exact_mod_cast hlen)
  have h3 : (idx % (bits.length : ℤ)).toNat < bits.length := by omega
  rw [List.getD_eq_getElem _ _ h3]
  exact hones _ (List.getElem_mem _)

/-- `DEFAULT_MOD_PARAMS` with the bit sequence replaced (for the all-ones
round-trip experiment of the spec). -/
noncomputable def askAllOnesParams (bits : List ℕ) : ModParams :=
  ⟨1, 100, 0.5, 10, 5000, 0.2, 0.5, 2, 1, 20, bits, 150, 50⟩

theorem askSignal_getD {bits : List ℕ} (hones : ∀ b ∈ bits, b = 1) (hne : bits ≠ [])
    (j : ℕ) (hj : j < 1000) :
    (modulateASK (generateModTimeVector 5000 0.2) (askAllOnesParams bits)).getD j 0 =
      Real.sin (π * j / 25) := by
  have hfloor : ⌊(5000 : ℝ) * 0.2⌋₊ = 1000 := by norm_num
  unfold modulateASK generateModTimeVector askAllOnesParams
  rw [hfloor, List.map_map]
  rw [List.getD_eq_getElem _ _ (by simpa using hj), List.getElem_map, List.getElem_range]
  show (1 : ℝ) * (getBit bits (bitIndex ((j : ℝ) * (1 / 5000)) 20) : ℝ) *
      Real.sin (2 * π * 100 * ((j : ℝ) * (1 / 5000))) = Real.sin (π * j / 25)
  rw [getBit_all_ones hones hne]
  rw [show (2 : ℝ) * π * 100 * ((j : ℝ) * (1 / 5000)) = π * j / 25 from by ring]
  norm_num

theorem askSignal_length {bits : List ℕ} :
    (modulateASK (generateModTimeVector 5000 0.2) (askAllOnesParams bits)).length
      = 1000 := by
  have hfloor : ⌊(5000 : ℝ) * 0.2⌋₊ = 1000 := by norm_num
  unfold modulateASK generateModTimeVector
  simp [hfloor]

/-- C4 (amended): for the default modulation parameters with any nonempty
all-ones bit sequence, the ASK round trip at threshold 0.3 reads 0 at sample
indices 0..4 (the envelope transient) and 1 at every sample index from 5 to
999. -/
theorem askRoundTrip_amended (bits : List ℕ) (hones : ∀ b ∈ bits, b = 1) (hne : bits ≠ [])
    (i : ℕ) (hi : i < 1000) :
    (demodulateASK
        (modulateASK (generateModTimeVector 5000 0.2) (askAllOnesParams bits))
        0.3).getD i 0 = if i < 5 then 0 else 1 := by
  have hi' : i < (modulateASK (generateModTimeVector 5000 0.2)
      (askAllOnesParams bits)).length := by
    rw [askSignal_length]
    exact hi
  rw [demodulateASK_getD _ _ i hi']
  have henv : envCell (modulateASK (generateModTimeVector 5000 0.2)
      (askAllOnesParams bits)) i =
      (∑ j ∈ Finset.Ico (i + 1 - min (i + 1) 10) (i + 1), sinv (j % 25)) /
        ((min (i + 1) 10 : ℕ) : ℝ) := by
    unfold envCell
    congr 1
    refine Finset.sum_congr rfl fun j hj => ?_
    have hj1000 : j < 1000 := by
      have h2 := (Finset.mem_Ico.mp hj).2
      omega
    rw [askSignal_getD hones hne j hj1000, abs_sin_pimod]
  rw [henv]
  by_cases h5 : i < 5
  · rw [if_pos h5, show i + 1 - min (i + 1) 10 = 0 from by omega,
      show min (i + 1) 10 = i + 1 from by omega]
    have hle : ¬((∑ j ∈ Finset.Ico 0 (i + 1), sinv (j % 25)) /
        (((i + 1 : ℕ)) : ℝ) > 0.3) := by
      push_neg
      interval_cases i <;>
        (rw [← Finset.range_eq_Ico]
         simp only [Finset.sum_range_succ, Finset.sum_range_zero]
         push_cast
         norm_num
         linarith [sinv0_eq, sinv1_ub, sinv2_ub, sinv3_ub, sinv4_ub])
    rw [if_neg hle]
  · rw [if_neg h5]
    have hgt : (∑ j ∈ Finset.Ico (i + 1 - min (i + 1) 10) (i + 1), sinv (j % 25)) /
        ((min (i + 1) 10 : ℕ) : ℝ) > 0.3 := by
      by_cases h9 : i < 9
      · rw [show i + 1 - min (i + 1) 10 = 0 from by omega,
          show min (i + 1) 10 = i + 1 from by omega]
        interval_cases i <;>
          (rw [← Finset.range_eq_Ico]
           simp only [Finset.sum_range_succ, Finset.sum_range_zero]
           push_cast
           norm_num
           linarith [sinv0_eq, sinv1_lb, sinv2_lb, sinv3_lb, sinv4_lb, sinv5_lb,
             sinv6_lb, sinv7_lb, sinv8_lb])
      · rw [show min (i + 1) 10 = 10 from by omega,
          show i + 1 - 10 = i - 9 from by omega,
          show i + 1 = (i - 9) + 10 from by omega,
          sum_Ico_mod_eq]
        have hw := winSum_gt ((i - 9) % 25) (Nat.mod_lt _ (by norm_num))
        push_cast
        linarith
    rw [if_pos hgt]

/-- C4, counterexample: with the default modulation parameters and the all-ones
bit sequence of default length, `demodulateASK (modulateASK ...)` at threshold
0.3 produces 1000 samples whose first element is 0, not 1: the envelope's
moving average needs five samples of the `sin(pi j / 25)` carrier before it
crosses the 0.3 threshold. -/
theorem askRoundTrip_not_all_ones :
    (demodulateASK (modulateASK (generateModTimeVector 5000 0.2)
        (askAllOnesParams [1, 1, 1, 1, 1, 1, 1, 1])) 0.3).length = 1000 ∧
      (demodulateASK (modulateASK (generateModTimeVector 5000 0.2)
        (askAllOnesParams [1, 1, 1, 1, 1, 1, 1, 1])) 0.3).getD 0 0 = 0 := by
  constructor
  · unfold demodulateASK
    rw [envelopeDetect_eq]
    simp [askSignal_length]
  · have hi' : 0 < (modulateASK (generateModTimeVector 5000 0.2)
        (askAllOnesParams [1, 1, 1, 1, 1, 1, 1, 1])).length := by
      rw [askSignal_length]
      norm_num
    rw [demodulateASK_getD _ _ 0 hi']
    have henv : envCell (modulateASK (generateModTimeVector 5000 0.2)
        (askAllOnesParams [1, 1, 1, 1, 1, 1, 1, 1])) 0 = 0 := by
      unfold envCell
      rw [show (0 : ℕ) + 1 - min (0 + 1) 10 = 0 from by norm_num,
        show min (0 + 1) 10 = 1 from by norm_num,
        show Finset.Ico 0 1 = {0} from rfl, Finset.sum_singleton]
      rw [askSignal_getD (by simp) (by simp) 0 (by norm_num)]
      norm_num
    rw [henv]
    norm_num

/-- Witness for C4: the amended theorem applied at bits `[1]` and index 7. -/
theorem askRoundTrip_amended_witness :
    (∀ b ∈ ([1] : List ℕ), b = 1) ∧ ([1] : List ℕ) ≠ [] ∧ (7 : ℕ) < 1000 ∧
      (demodulateASK (modulateASK (generateModTimeVector 5000 0.2)
        (askAllOnesParams [1])) 0.3).getD 7 0 = if 7 < 5 then 0 else 1 :=
  ⟨by simp, by simp, by norm_num,
    askRoundTrip_amended [1] (by simp) (by simp) 7 (by norm_num)⟩

end SignalForge
